import Mathlib

/-!
Verification of the ImageCompare tuple-matching algorithm and live
synchronization engine, shallowly embedded from the TypeScript sources
(`src/fileService.ts` and the panel provider).

Conventions of the embedding:
* `vscode.Uri` values are modelled by their path string.  The source only
  ever compares URIs for equality (`uri.toString() === ...`) or takes
  `uri.path`; for a fixed scheme both are injective images of the URI, so
  equality of paths is equivalent to equality of URIs.
* JavaScript `Map`s are modelled as association lists in insertion order;
  `Map.set` on an existing key updates it in place keeping its position,
  and appends otherwise (`setAList`).  Rebuilding a map by iterating an
  old one (`for (const [k,v] of old) fresh.set(f(k), v)`) is `rebuildMap`.
* Timestamps (`Date.now()`) are natural numbers.  The freshness test
  `now - d.timestamp < 2000` agrees with the JS computation whenever
  `d.timestamp ≤ now`, and also keeps the entry in both semantics when
  `now < d.timestamp`, so truncated subtraction is faithful.
* `String.prototype.toLowerCase` / `localeCompare` are modelled by
  `Char.toLower` / code-point comparison; they agree on ASCII names.
-/

namespace ImageCompare

/-! ## String helpers (fileService.ts / types.ts) -/

/-- `stripExtension`: `filename.replace(/\.[^.]+$/, '')` — drops the final
dot and everything after it, provided at least one non-dot character
follows the last dot. -/
def stripExtension (s : String) : String :=
  let rev := s.data.reverse
  let ext := rev.takeWhile (fun c => c ≠ '.')
  if ext.length < rev.length ∧ ext ≠ [] then
    ⟨((rev.drop ext.length).drop 1).reverse⟩
  else s

/-- `uri.path.split('/').pop() || ''` — the final path component. -/
def basename (s : String) : String :=
  ⟨(s.data.reverse.takeWhile (fun c => c ≠ '/')).reverse⟩

/-- `p.substring(0, p.lastIndexOf('/'))` — everything before the last
slash; the empty string when there is no slash (JS clamps `-1` to `0`). -/
def dirname (s : String) : String :=
  ⟨((s.data.reverse.dropWhile (fun c => c ≠ '/')).drop 1).reverse⟩

/-- `vscode.Uri.joinPath(base, name).path`. -/
def joinPath (base name : String) : String :=
  base ++ "/" ++ name

/-- The extension allowlist `IMAGE_EXTENSIONS` from types.ts. -/
def imageExts : List (List Char) :=
  [".png".data, ".jpg".data, ".jpeg".data, ".gif".data, ".bmp".data,
   ".webp".data, ".tiff".data, ".tif".data, ".ppmx".data]

/-- `isImageFile`: lowercases the name and takes
`slice(filename.lastIndexOf('.'))`; when there is no dot, JS
`slice(-1)` yields the final character. -/
def isImageFile (filename : String) : Bool :=
  let lower := filename.data.map Char.toLower
  let afterDot := lower.reverse.takeWhile (fun c => c ≠ '.')
  let ext : List Char :=
    if afterDot.length < lower.length then '.' :: afterDot.reverse
    else
      match lower.reverse with
      | [] => []
      | c :: _ => [c]
  imageExts.contains ext

/-- Occurrence of `pat` as a contiguous substring of `hay`
(`String.prototype.includes`). -/
def containsSub (hay pat : List Char) : Bool :=
  (List.range (hay.length + 1)).any (fun k => pat.isPrefixOf (hay.drop k))

/-! ## Association lists standing for JS `Map`s -/

/-- `Map.get`. -/
def alookup {κ ν : Type} [DecidableEq κ] : List (κ × ν) → κ → Option ν
  | [], _ => none
  | (k', v) :: rest, k => if k' = k then some v else alookup rest k

/-- `Map.set`: replace in place if the key exists, append otherwise. -/
def setAList {κ ν : Type} [DecidableEq κ] : List (κ × ν) → κ → ν → List (κ × ν)
  | [], k, v => [(k, v)]
  | (k', v') :: rest, k, v =>
      if k' = k then (k, v) :: rest else (k', v') :: setAList rest k v

/-- `Map.delete`. -/
def delAList {κ ν : Type} [DecidableEq κ] (m : List (κ × ν)) (k : κ) : List (κ × ν) :=
  m.filter (fun e => e.1 ≠ k)

/-- `for (const [k, v] of old) { ... fresh.set(k', v') ... }`:
rebuild a map entry by entry, dropping entries on which `f` is `none`. -/
def rebuildMap {κ ν : Type} [DecidableEq κ]
    (f : κ × ν → Option (κ × ν)) (m : List (κ × ν)) : List (κ × ν) :=
  m.foldl (fun acc e =>
    match f e with
    | some e' => setAList acc e'.1 e'.2
    | none => acc) []

/-! ## Matcher (fileService.ts, `matchTuplesWithTrie`) -/

/-- A `{ name, uri }` pair as enumerated from a modality directory. -/
structure MFile where
  name : String
  uri : String
deriving DecidableEq, Repr

/-- `modalityFiles.get(mod) || []`. -/
def getFiles (mf : List (String × List MFile)) (mod : String) : List MFile :=
  (alookup mf mod).getD []

/-- Reference-modality selection: start from `modalities[0]` and replace
whenever a strictly larger file count is seen. -/
def pickRefMod (mf : List (String × List MFile)) (mods : List String) : String :=
  (mods.foldl
    (fun (best : String × Nat) m =>
      let c := (getFiles mf m).length
      if best.2 < c then (m, c) else best)
    (mods.headD "", (getFiles mf (mods.headD "")).length)).1

/-- The matcher's trie: children in insertion order, plus the indices of
every reference file whose stripped name passes through the node. -/
inductive Trie where
  | node (children : List (Char × Trie)) (indices : List Nat)
deriving Repr

def Trie.children : Trie → List (Char × Trie)
  | .node ch _ => ch

def Trie.indices : Trie → List Nat
  | .node _ idxs => idxs

/-- `children.get(c)` on the trie node. -/
def childGet : List (Char × Trie) → Char → Option Trie
  | [], _ => none
  | (c', t) :: rest, c => if c' = c then some t else childGet rest c

/-- `children.set(c, t')`: in-place update keeps the position, a fresh key
is appended. -/
def childSet : List (Char × Trie) → Char → Trie → List (Char × Trie)
  | [], c, t' => [(c, t')]
  | (c', u) :: rest, c, t' =>
      if c' = c then (c, t') :: rest else (c', u) :: childSet rest c t'

/-- Insert one stripped reference name: index `i` is pushed on every node
along the path, the root included. -/
def Trie.insert : Trie → List Char → Nat → Trie
  | .node ch idxs, [], i => .node ch (idxs ++ [i])
  | .node ch idxs, c :: cs, i =>
      let sub := (childGet ch c).getD (.node [] [])
      .node (childSet ch c (sub.insert cs i)) (idxs ++ [i])

/-- Build the trie over all stripped reference names, indices in order. -/
def buildTrie (refKeys : List String) : Trie :=
  refKeys.enum.foldl (fun t p => t.insert p.2.data p.1) (.node [] [])

/-- The trie walk of pass 2: follow the query character by character,
remembering the deepest visited node whose index set is non-empty; the
walk starts with the root as current best. -/
def walkBest : Trie → List Char → Trie → Trie
  | _, [], best => best
  | t, c :: cs, best =>
      match childGet t.children c with
      | none => best
      | some t' => walkBest t' cs (if t'.indices ≠ [] then t' else best)

/-- The candidate set of the fuzzy pass: the index set stored at the node
`walkBest` returns. -/
def fuzzyCandidates (trie : Trie) (q : String) : List Nat :=
  (walkBest trie q.data trie).indices

/-- `refBaseToIdx.get(q)` where the map was filled by `set` for
`i = 0 .. n-1`: the *last* reference index whose stripped name is `q`
(later `set`s overwrite earlier ones). -/
def exactIdx (refKeys : List String) (q : String) : Option Nat :=
  ((List.range refKeys.length).filter (fun i => refKeys.getD i "" = q)).getLast?

/-- Inner loop of the LCS dynamic program: given the current character
`ai` of the first string, the remaining characters of the second string,
the previous row's remaining cells `prev[j..]`, the diagonal cell
`prev[j-1]`, and the cell to the left `curr[j-1]`, produce `curr[j..]`
via `curr[j] = if a(i)=b(j) then prev[j-1]+1 else max(prev[j],
curr[j-1])`. -/
def lcsNewRow (ai : Char) : List Char → List Nat → Nat → Nat → List Nat
  | [], _, _, _ => []
  | bj :: bs, prev, diag, left =>
      let pj := prev.headD 0
      let cur := if ai = bj then diag + 1 else max pj left
      cur :: lcsNewRow ai bs prev.tail pj cur

/-- Longest-common-subsequence length, exactly the source's two-row
rolling dynamic program: start from an all-zero row of length
`b.length + 1` and fold one row per character of `a`; the answer is
`prev[b.length]`, the last cell of the final row. -/
def lcsLen (a b : List Char) : Nat :=
  let init := List.replicate (b.length + 1) 0
  let last := a.foldl (fun prev ai => 0 :: lcsNewRow ai b prev.tail (prev.headD 0) 0) init
  last.getLast?.getD 0

/-- The crop-suffix test `/_crop\d+$/`. -/
def isCropName (s : String) : Bool :=
  let rev := s.data.reverse
  let digits := rev.takeWhile Char.isDigit
  digits ≠ [] && (rev.drop digits.length).take 5 = "porc_".data

/-- `lenDiff < bestLenDiff` where `bestLenDiff` starts at `Infinity`. -/
def ltOptNat (a : Nat) : Option Nat → Bool
  | none => true
  | some b => a < b

/-- `lenDiff === bestLenDiff` against a possibly-infinite best. -/
def eqOptNat (a : Nat) : Option Nat → Bool
  | none => false
  | some b => a = b

/-- The running best of the tie-break scan:
`(bestIsCrop, bestLenDiff, bestLcs, bestIdx)` with initial values
`(true, Infinity, -1, candidates[0])`. -/
structure TB where
  isCrop : Bool
  lenDiff : Option Nat
  lcs : Int
  idx : Nat
deriving DecidableEq, Repr

/-- One step of the candidate scan, mirroring `isBetter`:
non-crop beats crop; then smaller length difference; then larger LCS. -/
def tbStep (refKeys : List String) (q : List Char) (st : TB) (i : Nat) : TB :=
  let refName := (refKeys.getD i "").data
  let isCrop := isCropName ⟨refName⟩
  let lenDiff := (Int.natAbs ((refName.length : Int) - (q.length : Int)))
  let lcs : Int := (lcsLen q refName : Int)
  let isBetter :=
    (!isCrop && st.isCrop) ||
    (isCrop == st.isCrop && ltOptNat lenDiff st.lenDiff) ||
    (isCrop == st.isCrop && eqOptNat lenDiff st.lenDiff && st.lcs < lcs)
  if isBetter then ⟨isCrop, some lenDiff, lcs, i⟩ else st

/-- Tie-break among fuzzy candidates.  `bestIdx` starts as
`candidates[0]`; the scan runs only when there is more than one
candidate. -/
def selectBest (refKeys : List String) (q : String) (cands : List Nat) : Nat :=
  match cands with
  | [] => 0
  | [c] => c
  | c :: cs => ((c :: cs).foldl (tbStep refKeys q.data) ⟨true, none, -1, c⟩).idx

/-- The unique reference index a non-reference file is assigned to:
its exact match when one exists, otherwise the tie-broken fuzzy pick
(none only when the candidate set is empty). -/
def fileTarget (refKeys : List String) (trie : Trie) (q : String) : Option Nat :=
  match exactIdx refKeys q with
  | some i => some i
  | none =>
      match fuzzyCandidates trie q with
      | [] => none
      | c :: cs => some (selectBest refKeys q (c :: cs))

/-- One group of the matcher output: modality → chosen file. -/
abbrev Grp := List (String × MFile)

/-- `tupleMap` initialisation: group `i` starts holding reference file `i`
under the reference modality. -/
def groupsInit (refMod : String) (refFiles : List MFile) : List Grp :=
  refFiles.map (fun f => [(refMod, f)])

/-- `tupleMap.get(i)!.set(mod, file)`. -/
def updateGroup (gs : List Grp) (i : Nat) (mod : String) (f : MFile) : List Grp :=
  gs.set i (setAList (gs.getD i []) mod f)

/-- Pass 1 body for one file: attach it to its exact reference match, if
any. -/
def applyExactFile (refKeys : List String) (mod : String) (gs : List Grp) (f : MFile) :
    List Grp :=
  match exactIdx refKeys (stripExtension f.name) with
  | some i => updateGroup gs i mod f
  | none => gs

/-- Pass 1: for every non-reference modality in order, attach every file
whose stripped name equals a reference stripped name. -/
def exactPass (refKeys : List String) (refMod : String)
    (mf : List (String × List MFile)) (mods : List String) (gs : List Grp) : List Grp :=
  mods.foldl
    (fun gs m =>
      if m = refMod then gs
      else (getFiles mf m).foldl (applyExactFile refKeys m) gs)
    gs

/-- Pass 2 body for one file: skip exact matches, walk the trie, and when
the candidate set is non-empty attach the file to the tie-broken pick. -/
def applyFuzzyFile (refKeys : List String) (trie : Trie) (mod : String)
    (gs : List Grp) (f : MFile) : List Grp :=
  let q := stripExtension f.name
  if (exactIdx refKeys q).isSome then gs
  else
    match fuzzyCandidates trie q with
    | [] => gs
    | c :: cs => updateGroup gs (selectBest refKeys q (c :: cs)) mod f

/-- Pass 2 over every non-reference modality. -/
def fuzzyPass (refKeys : List String) (trie : Trie) (refMod : String)
    (mf : List (String × List MFile)) (mods : List String) (gs : List Grp) : List Grp :=
  mods.foldl
    (fun gs m =>
      if m = refMod then gs
      else (getFiles mf m).foldl (applyFuzzyFile refKeys trie m) gs)
    gs

/-- The groups after both passes, indexed by reference index. -/
def matcherGroups (mf : List (String × List MFile)) (mods : List String)
    (refMod : String) (refFiles : List MFile) : List Grp :=
  let refKeys := refFiles.map (fun f => stripExtension f.name)
  let trie := buildTrie refKeys
  fuzzyPass refKeys trie refMod mf mods
    (exactPass refKeys refMod mf mods (groupsInit refMod refFiles))

/-- One element of the matcher output. -/
structure MatchedTuple where
  key : String
  files : Grp
deriving DecidableEq, Repr

/-- `matchTuplesWithTrie`.  The final TS step sorts the emitted groups by
key with a locale-aware natural comparator; that reorders whole groups
without changing any group's contents, and every property proved below is
invariant under permutations of the output, so the sort is not modelled. -/
def matchTuplesWithTrie (mf : List (String × List MFile)) (mods : List String) :
    List MatchedTuple :=
  if mods.length < 2 then
    match mods with
    | [m] => (getFiles mf m).map (fun f => ⟨stripExtension f.name, [(m, f)]⟩)
    | _ => []
  else
    let refMod := pickRefMod mf mods
    let refFiles := getFiles mf refMod
    if refFiles = [] then []
    else
      let refKeys := refFiles.map (fun f => stripExtension f.name)
      (matcherGroups mf mods refMod refFiles).enum.map
        (fun p => ⟨refKeys.getD p.1 "", p.2⟩)

/-- The reference indices claimed during the exact pass: those receiving
an exact (stripped-name) match from at least one non-reference modality
file.  (The production matcher computes these matches but keeps no such
set; the specification's fuzzy pass subtracts it, so it is defined here
to state that comparison.) -/
def exactClaimed (refKeys : List String) (mf : List (String × List MFile))
    (mods : List String) (refMod : String) : List Nat :=
  (List.range refKeys.length).filter (fun i =>
    mods.any (fun m => m ≠ refMod && (getFiles mf m).any
      (fun f => exactIdx refKeys (stripExtension f.name) = some i)))

/-- The three tie-break attributes of candidate `i` against query `q`:
crop flag, absolute stripped-length difference, LCS length. -/
def tbKey (refKeys : List String) (q : List Char) (i : Nat) : Bool × Nat × Int :=
  let refName := (refKeys.getD i "").data
  (isCropName ⟨refName⟩,
   Int.natAbs ((refName.length : Int) - (q.length : Int)),
   (lcsLen q refName : Int))

/-- Strict preference between tie-break keys: a non-crop beats a crop;
at equal crop status a smaller length difference wins; at equal length
difference a larger LCS wins. -/
def tbBetter (a b : Bool × Nat × Int) : Prop :=
  (a.1 = false ∧ b.1 = true) ∨
  (a.1 = b.1 ∧ a.2.1 < b.2.1) ∨
  (a.1 = b.1 ∧ a.2.1 = b.2.1 ∧ b.2.2 < a.2.2)

instance (a b : Bool × Nat × Int) : Decidable (tbBetter a b) := by
  unfold tbBetter
  infer_instance

/-- The scan accumulator that records candidate `j` as current best. -/
def tbState (refKeys : List String) (q : List Char) (j : Nat) : TB :=
  ⟨(tbKey refKeys q j).1, some (tbKey refKeys q j).2.1, (tbKey refKeys q j).2.2, j⟩

/-- Invariant of the group table during both matcher passes: one group
per reference index; each group has pairwise-distinct modality keys,
holds reference file `i` under the reference modality, and holds under
any other modality only a file of that modality whose (unique) target
index is `i`. -/
def GroupInv (refMod : String) (refFiles : List MFile) (refKeys : List String)
    (trie : Trie) (mf : List (String × List MFile)) (gs : List Grp) : Prop :=
  gs.length = refFiles.length ∧
  ∀ i g, gs.get? i = some g →
    (g.map Prod.fst).Nodup ∧
    alookup g refMod = refFiles.get? i ∧
    ∀ mod f, mod ≠ refMod → alookup g mod = some f →
      f ∈ getFiles mf mod ∧ fileTarget refKeys trie (stripExtension f.name) = some i

/-- The last file in list order satisfying `pr`, as a left fold. -/
def lastHit (pr : MFile → Bool) (files : List MFile) : Option MFile :=
  files.foldl (fun acc f => if pr f then some f else acc) none

/-- Does the exact pass assign `f` to reference index `i`? -/
def exactHitB (refKeys : List String) (i : Nat) (f : MFile) : Bool :=
  exactIdx refKeys (stripExtension f.name) == some i

/-- Does the fuzzy pass assign `f` to reference index `i`? -/
def fuzzyHitB (refKeys : List String) (trie : Trie) (i : Nat) (f : MFile) : Bool :=
  !(exactIdx refKeys (stripExtension f.name)).isSome &&
  (match fuzzyCandidates trie (stripExtension f.name) with
   | [] => false
   | c :: cs => selectBest refKeys (stripExtension f.name) (c :: cs) == i)

/-- The file a group's modality entry ends up holding: the last fuzzy
assignment if any (the fuzzy pass runs second), else the last exact
assignment. -/
def lastAssigned (refKeys : List String) (trie : Trie) (i : Nat)
    (files : List MFile) : Option MFile :=
  match lastHit (fuzzyHitB refKeys trie i) files with
  | some f => some f
  | none => lastHit (exactHitB refKeys i) files

/-! ## Live synchronization engine (panel provider)

The mutable `PanelState` fields touched by the create/delete handlers.
Fields that only drive side effects (webview messages, thumbnail
regeneration, watcher registration, results persistence) are outside the
model.  `LoadedImage` payloads are opaque and stand in as `Nat`; a cache
key `` `${t}-${m}` `` is the pair `(t, m)`. -/

structure SImage where
  uri : String
  name : String
  modality : String
deriving DecidableEq, Repr

structure STuple where
  name : String
  images : List SImage
deriving DecidableEq, Repr

/-- An entry of `recentlyDeleted` (`DeletedFileInfo`). -/
structure SDeleted where
  uri : String
  tupleIndex : Nat
  modalityIndex : Nat
  timestamp : Nat
deriving DecidableEq, Repr

structure SState where
  tuples : List STuple
  modalities : List String
  isMultiTupleMode : Bool
  loadedImages : List ((Nat × Nat) × Nat)
  currentTupleIndex : Nat
  recentlyDeleted : List SDeleted
  winners : List (Nat × Nat)
  baseUri : Option String
  modalityDirs : List (String × String)
deriving DecidableEq, Repr

/-- `cleanupRecentlyDeleted`: drop entries two seconds old or older. -/
def cleanupRecentlyDeleted (st : SState) (now : Nat) : SState :=
  { st with recentlyDeleted :=
      st.recentlyDeleted.filter (fun d => now - d.timestamp < 2000) }

/-- `Array.prototype.findIndex`, with `-1` rendered as `none`. -/
def firstIdxWhere {α : Type} (pr : α → Bool) : List α → Option Nat
  | [] => none
  | x :: xs => if pr x then some 0 else (firstIdxWhere pr xs).map (· + 1)

/-- Does modality `m` own directory `p`?  Mode 1 compares against
`baseUri` + name, mode 2 against the `modalityDirs` map. -/
def matchesModalityDir (st : SState) (p : String) (m : String) : Bool :=
  (match st.baseUri with
   | some b => joinPath b m = p
   | none => false) ||
  (match alookup st.modalityDirs m with
   | some d => d = p
   | none => false)

/-- The `findIndex` over modalities in `handleFileDeleted`. -/
def modalityDirIndex (st : SState) (p : String) : Option Nat :=
  firstIdxWhere (matchesModalityDir st p) st.modalities

/-- `removeModality`: drop the name, filter every tuple's images, clear
the whole image cache, drop/shift winners.  (`recentlyDeleted` and
`currentTupleIndex` are untouched by the source.) -/
def removeModality (st : SState) (mIdx : Nat) : SState :=
  let modality := st.modalities.getD mIdx ""
  { st with
    modalities := st.modalities.eraseIdx mIdx,
    tuples := st.tuples.map (fun t =>
      { t with images := t.images.filter (fun img => img.modality ≠ modality) }),
    loadedImages := [],
    winners := rebuildMap (fun e =>
      if e.2 = mIdx then none
      else if mIdx < e.2 then some (e.1, e.2 - 1)
      else some e) st.winners }

/-- `removeTuple`: splice the tuple out and renumber every keyed
collection; entries pointing exactly at the removed index are dropped. -/
def removeTuple (st : SState) (ti : Nat) : SState :=
  let tuples' := st.tuples.eraseIdx ti
  { st with
    tuples := tuples',
    loadedImages := rebuildMap (fun e =>
      if ti < e.1.1 then some ((e.1.1 - 1, e.1.2), e.2)
      else if e.1.1 < ti then some e
      else none) st.loadedImages,
    winners := rebuildMap (fun e =>
      if ti < e.1 then some (e.1 - 1, e.2)
      else if e.1 < ti then some e
      else none) st.winners,
    recentlyDeleted := (st.recentlyDeleted.filter (fun d => d.tupleIndex ≠ ti)).map
      (fun d => if ti < d.tupleIndex then { d with tupleIndex := d.tupleIndex - 1 } else d),
    currentTupleIndex :=
      if tuples'.length ≤ st.currentTupleIndex then tuples'.length - 1
      else if ti < st.currentTupleIndex then st.currentTupleIndex - 1
      else st.currentTupleIndex }

/-- `checkModalityEmpty`: remove a modality once no tuple holds a file
for it.  JS treats both `undefined` and the empty string as falsy in
`if (!modality) return`. -/
def checkModalityEmpty (st : SState) (mIdx : Nat) : SState :=
  match st.modalities.get? mIdx with
  | none => st
  | some m =>
      if m = "" then st
      else if st.tuples.any (fun t => t.images.any (fun img => img.modality = m)) then st
      else removeModality st mIdx

/-- `Array.prototype.splice(i, 0, a)`: insertion is clamped to the end
when `i` exceeds the length. -/
def spliceInsert {α : Type} (l : List α) (i : Nat) (a : α) : List α :=
  l.take i ++ a :: l.drop i

/-- The new-tuple insertion block of `handleNewFile`: splice the tuple in
and shift indices at or above the insertion point up by one across the
image cache, winners and `recentlyDeleted`. -/
def insertTuple (st : SState) (insertIndex : Nat) (t : STuple) : SState :=
  { st with
    tuples := spliceInsert st.tuples insertIndex t,
    loadedImages := rebuildMap (fun e =>
      if insertIndex ≤ e.1.1 then some ((e.1.1 + 1, e.1.2), e.2) else some e)
      st.loadedImages,
    winners := rebuildMap (fun e =>
      if insertIndex ≤ e.1 then some (e.1 + 1, e.2) else some e) st.winners,
    recentlyDeleted := st.recentlyDeleted.map
      (fun d => if insertIndex ≤ d.tupleIndex then { d with tupleIndex := d.tupleIndex + 1 } else d),
    currentTupleIndex :=
      if insertIndex ≤ st.currentTupleIndex then st.currentTupleIndex + 1
      else st.currentTupleIndex }

/-- The nested scan of the delete and create handlers: the first tuple
index holding an image with the given URI, together with that image. -/
def firstImageSlot : List STuple → String → Option (Nat × SImage)
  | [], _ => none
  | t :: rest, p =>
      match t.images.find? (fun img => img.uri = p) with
      | some img => some (0, img)
      | none => (firstImageSlot rest p).map (fun q => (q.1 + 1, q.2))

/-- `handleFileDeleted`, immediate part.  The scheduled 500 ms finalize
check is `finalizeDelete` below.  (JS `indexOf` yields `-1` for a missing
modality; `List.indexOf` yields the length.  Every reachable state lists
each image's modality, where the two agree.) -/
def handleFileDeleted (st : SState) (p : String) (now : Nat) : SState :=
  if st.recentlyDeleted.any (fun d => d.uri = p) then st
  else
    match modalityDirIndex st p with
    | some mIdx => removeModality st mIdx
    | none =>
        match firstImageSlot st.tuples p with
        | none => st
        | some (ti, img) =>
            let gmi := st.modalities.indexOf img.modality
            let st1 := cleanupRecentlyDeleted st now
            { st1 with
              recentlyDeleted := st1.recentlyDeleted ++ [⟨p, ti, gmi, now⟩],
              loadedImages := delAList st1.loadedImages (ti, gmi) }

/-- The `setTimeout` callback scheduled by `handleFileDeleted`.  The
callback captures the tuple object and re-resolves its index at fire
time (`tuples.indexOf(capturedTuple)`); object identity has no shallow
counterpart, so the resolved index is a parameter here, along with the
captured global modality index and modality name. -/
def finalizeDelete (st : SState) (ti gmi : Nat) (modalityName : String) : SState :=
  if st.recentlyDeleted.any (fun d => d.tupleIndex == ti && d.modalityIndex == gmi) then
    let st1 := { st with recentlyDeleted :=
        st.recentlyDeleted.filter (fun d => !(d.tupleIndex == ti && d.modalityIndex == gmi)) }
    match st1.tuples.get? ti with
    | none => st1
    | some tuple =>
        let images' := tuple.images.filter (fun img => img.modality ≠ modalityName)
        let st2 := { st1 with tuples := st1.tuples.set ti { tuple with images := images' } }
        let st3 :=
          if alookup st2.winners ti = some gmi then
            { st2 with winners := delAList st2.winners ti }
          else st2
        let st4 := if images' = [] then removeTuple st3 ti else st3
        checkModalityEmpty st4 gmi
  else st

/-- `findExistingSlotByUri`: first slot whose stored URI matches exactly,
as `(tupleIndex, global modality index)`. -/
def findExistingSlotByUri (st : SState) (p : String) : Option (Nat × Nat) :=
  (firstImageSlot st.tuples p).map (fun q => (q.1, st.modalities.indexOf q.2.modality))

/-- The loop body of `findMatchingDeletedFile`: per entry, first the
same-directory heuristic, then (multi-tuple mode only) the
sibling-directory / identical-filename heuristic. -/
def findDeletedGo (st : SState) (newUri : String) : List SDeleted → Option SDeleted
  | [] => none
  | d :: rest =>
      let newFilename := basename newUri
      let newDir := dirname newUri
      let deletedDir := dirname d.uri
      if newDir = deletedDir then some d
      else
        let newParent := dirname newDir
        let deletedParent := dirname deletedDir
        if newParent = deletedParent ∧ st.isMultiTupleMode then
          if basename d.uri = newFilename then some d
          else findDeletedGo st newUri rest
        else findDeletedGo st newUri rest

/-- `findMatchingDeletedFile`: scan `recentlyDeleted` in order. -/
def findMatchingDeletedFile (st : SState) (newUri : String) : Option SDeleted :=
  findDeletedGo st newUri st.recentlyDeleted

/-- The single-entry predicate the scan applies (for specification). -/
def deletedMatchPred (st : SState) (newUri : String) (d : SDeleted) : Bool :=
  (dirname newUri = dirname d.uri) ||
  (dirname (dirname newUri) = dirname (dirname d.uri) &&
    st.isMultiTupleMode && basename d.uri = basename newUri)

/-- Mode-2 modality resolution: first `modalityDirs` entry whose
directory (plus a slash) is a proper path-prefix of the file. -/
def findModDir : List (String × String) → String → Option String
  | [], _ => none
  | (m, dir) :: rest, p =>
      if (dir ++ "/").data.isPrefixOf p.data then some m else findModDir rest p

/-- `String.prototype.split('/')`: always at least one (possibly empty)
segment. -/
def splitSlash : List Char → List (List Char)
  | [] => [[]]
  | c :: rest =>
      let r := splitSlash rest
      if c = '/' then [] :: r
      else (c :: r.headD []) :: r.tail

/-- Modality determination of `handleNewFile` (modes 1–3). -/
def resolveModality (st : SState) (filePath : String) : Option String :=
  match st.baseUri with
  | some basePath =>
      if basePath.data.isPrefixOf filePath.data then
        let parts := splitSlash (filePath.data.drop (basePath.length + 1))
        if parts.length < 2 then none
        else some ⟨parts.headD []⟩
      else none
  | none =>
      if st.modalityDirs ≠ [] then findModDir st.modalityDirs filePath
      else none

/-- Per-tuple match score of `handleNewFile`: the tuple name's length
when it is a (non-empty) substring of the new stripped name, upgraded to
the full stripped-name length when some image in the tuple has an
identical stripped basename; `-1` means no match. -/
def tupleMatchLen (t : STuple) (base : String) : Int :=
  let m1 : Int :=
    if t.name ≠ "" && containsSub base.data t.name.data then (t.name.length : Int) else -1
  if t.images.any (fun img => stripExtension img.name = base) then (base.length : Int) else m1

/-- Scan state `(matchingTupleIndex, bestMatchLen, bestSlotFree)`, with
`-1` for "no tuple yet" rendered as `none`. -/
structure ScanSt where
  matchIdx : Option Nat
  bestLen : Int
  bestFree : Bool
deriving DecidableEq, Repr

/-- One step of the most-specific-match scan: a strictly longer match
always wins; at equal length a tuple with a free slot for this modality
is preferred over the current slotless best. -/
def scanStep (modalityName : String) (base : String) (st : ScanSt) (p : Nat × STuple) :
    ScanSt :=
  let matchLen := tupleMatchLen p.2 base
  if matchLen < 0 then st
  else
    let slotFree := !(p.2.images.any (fun img => img.modality = modalityName))
    if st.bestLen < matchLen then ⟨some p.1, matchLen, slotFree⟩
    else if matchLen = st.bestLen ∧ slotFree ∧ st.bestFree = false then
      ⟨some p.1, st.bestLen, slotFree⟩
    else st

/-- Stable sort of a tuple's images by global modality order
(`Array.prototype.sort` is stable). -/
def sortByModality (mods : List String) (images : List SImage) : List SImage :=
  images.mergeSort (fun a b => mods.indexOf a.modality ≤ mods.indexOf b.modality)

/-- Insertion point of `addNewModality`: the first position whose name
compares greater (`localeCompare` modelled by code-point order). -/
def addNewModalityIdx (mods : List String) (name : String) : Nat :=
  match firstIdxWhere (fun m => name < m) mods with
  | some i => i
  | none => mods.length

/-- `addNewModality`: insert the name sorted, clear the image cache
entirely, shift winners' modality component, re-sort every tuple's
images; returns the insertion index. -/
def addNewModality (st : SState) (name : String) : SState × Nat :=
  let insertIndex := addNewModalityIdx st.modalities name
  let modalities' := spliceInsert st.modalities insertIndex name
  ({ st with
      modalities := modalities',
      loadedImages := [],
      winners := rebuildMap (fun e =>
        if insertIndex ≤ e.2 then some (e.1, e.2 + 1) else some e) st.winners,
      tuples := st.tuples.map (fun t =>
        { t with images := sortByModality modalities' t.images }) },
   insertIndex)

/-- `handleNewFile`: multi-tuple mode only; resolve the modality (adding
a previously-unseen one), scan for the most specific matching tuple,
attach when the chosen best has a free slot, otherwise insert a
brand-new single-image tuple right after the current tuple. -/
def handleNewFile (st : SState) (uri filename : String) : SState :=
  if st.isMultiTupleMode = false then st
  else
    match resolveModality st uri with
    | none => st
    | some modalityName =>
        let stIdx :=
          match firstIdxWhere (fun m => m = modalityName) st.modalities with
          | some i => (st, i)
          | none => addNewModality st modalityName
        let st1 := stIdx.1
        let base := stripExtension filename
        let scan := st1.tuples.enum.foldl (scanStep modalityName base) ⟨none, -1, false⟩
        let matching := if scan.bestFree = false then none else scan.matchIdx
        match matching with
        | some i =>
            match st1.tuples.get? i with
            | none => st1
            | some tuple =>
                let images' :=
                  sortByModality st1.modalities (tuple.images ++ [⟨uri, filename, modalityName⟩])
                { st1 with tuples := st1.tuples.set i { tuple with images := images' } }
        | none =>
            insertTuple st1 (st1.currentTupleIndex + 1) ⟨base, [⟨uri, filename, modalityName⟩]⟩

/-- First image of a tuple for the given modality name, updated in place
with the new URI and display name (`find` + field mutation). -/
def updateFirstImage : List SImage → String → String → String → List SImage
  | [], _, _, _ => []
  | img :: rest, modality, uri, fname =>
      if img.modality = modality then { img with uri := uri, name := fname } :: rest
      else img :: updateFirstImage rest modality uri fname

/-- `handleFileCreated`: restore an identical path, else resolve a rename
against `recentlyDeleted`, else treat as a genuinely new file. -/
def handleFileCreated (st : SState) (uri : String) (now : Nat) : SState :=
  let filename := basename uri
  if isImageFile filename = false then st
  else
    let st1 := cleanupRecentlyDeleted st now
    match findExistingSlotByUri st1 uri with
    | some q => { st1 with loadedImages := delAList st1.loadedImages (q.1, q.2) }
    | none =>
        match findMatchingDeletedFile st1 uri with
        | some d =>
            let ti := d.tupleIndex
            let mi := d.modalityIndex
            let modality := st1.modalities.getD mi ""
            let tuples' :=
              match st1.tuples.get? ti with
              | none => st1.tuples
              | some tuple =>
                  st1.tuples.set ti
                    { tuple with images := updateFirstImage tuple.images modality uri filename }
            { st1 with
                tuples := tuples',
                recentlyDeleted := st1.recentlyDeleted.filter
                  (fun d' => !(d'.tupleIndex == ti && d'.modalityIndex == mi)),
                loadedImages := delAList st1.loadedImages (ti, mi) }
        | none => handleNewFile st1 uri filename

/-! ## Concrete fixtures used by witnesses and counterexamples -/

/-- A two-tuple state exercising every keyed collection. -/
def stFix : SState :=
  { tuples := [⟨"a", [⟨"/d/A/a.png", "a.png", "A"⟩]⟩,
               ⟨"b", [⟨"/d/A/b.png", "b.png", "A"⟩]⟩],
    modalities := ["A", "B"], isMultiTupleMode := true,
    loadedImages := [((0, 0), 1), ((1, 1), 2)], currentTupleIndex := 1,
    recentlyDeleted := [⟨"/q", 1, 0, 10⟩], winners := [(0, 1), (1, 0)],
    baseUri := none, modalityDirs := [] }

/-- A fresh single-image tuple. -/
def tupFix : STuple := ⟨"new", [⟨"/d/A/new.png", "new.png", "A"⟩]⟩

/-- A multi-tuple state whose `recentlyDeleted` holds a sibling-modality
candidate (`/p/B/f.png`) ahead of a same-directory candidate
(`/p/A/g.png`), relative to a creation at `/p/A/f.png`. -/
def stRenameFix : SState :=
  { tuples := [], modalities := ["A", "B"], isMultiTupleMode := true,
    loadedImages := [], currentTupleIndex := 0,
    recentlyDeleted := [⟨"/p/B/f.png", 0, 1, 100⟩, ⟨"/p/A/g.png", 1, 0, 100⟩],
    winners := [], baseUri := some "/p", modalityDirs := [] }

/-- A single-tuple (non-multi) state holding one stale `recentlyDeleted`
entry (timestamp 0). -/
def stStaleFix : SState :=
  { tuples := [⟨"img1", [⟨"/d/A/img1.png", "img1.png", "A"⟩]⟩],
    modalities := ["A", "B"], isMultiTupleMode := false,
    loadedImages := [], currentTupleIndex := 0,
    recentlyDeleted := [⟨"/d/A/old.png", 0, 0, 0⟩], winners := [],
    baseUri := some "/d", modalityDirs := [] }

/-- A one-tuple multi-tuple-mode state whose only tuple already holds an
image for modality `A`. -/
def stOccFix : SState :=
  { tuples := [⟨"img", [⟨"/d/A/img.png", "img.png", "A"⟩]⟩], modalities := ["A", "B"],
    isMultiTupleMode := true, loadedImages := [((0, 0), 5)], currentTupleIndex := 0,
    recentlyDeleted := [], winners := [(0, 0)], baseUri := some "/d",
    modalityDirs := [] }

/-- A clean two-modality state with one tuple, a winner on slot `(0,0)`,
and no pending deletions, for the rename scenario. -/
def stGraceFix : SState :=
  { tuples := [⟨"img1", [⟨"/d/A/img1.png", "img1.png", "A"⟩,
                         ⟨"/d/B/img1.png", "img1.png", "B"⟩]⟩],
    modalities := ["A", "B"], isMultiTupleMode := true,
    loadedImages := [((0, 0), 7), ((0, 1), 8)], currentTupleIndex := 0,
    recentlyDeleted := [], winners := [(0, 0)],
    baseUri := some "/d", modalityDirs := [] }

/-- Matcher input where modality `B`'s file `abc.png` has no exact match
and its deepest trie node (`"ab"`) holds only the exactly-claimed
reference index 0. -/
def mfCexFix : List (String × List MFile) :=
  [("A", [⟨"ab.png", "/d/A/ab.png"⟩, ⟨"ax.png", "/d/A/ax.png"⟩]),
   ("B", [⟨"ab.png", "/d/B/ab.png"⟩, ⟨"abc.png", "/d/B/abc.png"⟩])]

/-- Matcher input with reference files `x_gt` / `x_crop01` and the probe
`x_pred`. -/
def mfCropFix : List (String × List MFile) :=
  [("R", [⟨"x_gt.png", "/d/R/x_gt.png"⟩, ⟨"x_crop01.png", "/d/R/x_crop01.png"⟩]),
   ("M", [⟨"x_pred.png", "/d/M/x_pred.png"⟩])]

/-! ## Generic list and association-list lemmas -/

theorem foldl_inv {α β : Type} (P : β → Prop) (step : β → α → β) :
    ∀ (l : List α) (init : β), P init →
      (∀ b a, a ∈ l → P b → P (step b a)) → P (l.foldl step init) := by
  intro l
  induction l with
  | nil => intro init h _; exact h
  | cons a l ih =>
      intro init h hstep
      exact ih (step init a) (hstep init a (List.mem_cons_self a l) h)
        (fun b x hx hb => hstep b x (List.mem_cons_of_mem a hx) hb)

theorem setAList_of_not_mem {κ ν : Type} [DecidableEq κ] (k : κ) (v : ν) :
    ∀ (m : List (κ × ν)), k ∉ m.map Prod.fst → setAList m k v = m ++ [(k, v)] := by
  intro m
  induction m with
  | nil => intro _; rfl
  | cons e rest ih =>
      intro h
      obtain ⟨k₀, v₀⟩ := e
      simp only [List.map_cons, List.mem_cons, not_or] at h
      simp only [setAList, if_neg (fun hk : k₀ = k => h.1 hk.symm), List.cons_append]
      rw [ih h.2]

theorem alookup_setAList_self {κ ν : Type} [DecidableEq κ] (k : κ) (v : ν) :
    ∀ (m : List (κ × ν)), alookup (setAList m k v) k = some v := by
  intro m
  induction m with
  | nil => simp [setAList, alookup]
  | cons e rest ih =>
      by_cases h : e.1 = k
      · obtain ⟨k', v'⟩ := e
        simp only [setAList]
        simp only at h
        rw [if_pos h]
        simp [alookup]
      · obtain ⟨k', v'⟩ := e
        simp only [setAList]
        simp only at h
        rw [if_neg h]
        simp only [alookup, if_neg h]
        exact ih

theorem alookup_setAList_ne {κ ν : Type} [DecidableEq κ] (k k' : κ) (v : ν) (h : k ≠ k') :
    ∀ (m : List (κ × ν)), alookup (setAList m k v) k' = alookup m k' := by
  intro m
  induction m with
  | nil => simp [setAList, alookup, if_neg h]
  | cons e rest ih =>
      obtain ⟨k₀, v₀⟩ := e
      by_cases h0 : k₀ = k
      · subst h0
        simp only [setAList, if_pos rfl, alookup, if_neg h]
      · simp only [setAList, if_neg h0, alookup]
        by_cases h1 : k₀ = k'
        · simp [if_pos h1]
        · simp only [if_neg h1]
          exact ih

theorem keys_setAList_subset {κ ν : Type} [DecidableEq κ] (k : κ) (v : ν) :
    ∀ (m : List (κ × ν)) (k' : κ), k' ∈ (setAList m k v).map Prod.fst →
      k' = k ∨ k' ∈ m.map Prod.fst := by
  intro m
  induction m with
  | nil => intro k' h; simp [setAList] at h; exact Or.inl h
  | cons e rest ih =>
      intro k' h
      obtain ⟨k₀, v₀⟩ := e
      by_cases h0 : k₀ = k
      · simp only [setAList, if_pos h0, List.map_cons, List.mem_cons] at h
        rcases h with h | h
        · exact Or.inl h
        · exact Or.inr (by simp only [List.map_cons, List.mem_cons]; exact Or.inr h)
      · simp only [setAList, if_neg h0, List.map_cons, List.mem_cons] at h
        rcases h with h | h
        · exact Or.inr (by simp only [List.map_cons, List.mem_cons]; exact Or.inl h)
        · rcases ih k' h with h1 | h1
          · exact Or.inl h1
          · exact Or.inr (by simp only [List.map_cons, List.mem_cons]; exact Or.inr h1)

theorem keys_setAList_nodup {κ ν : Type} [DecidableEq κ] (k : κ) (v : ν) :
    ∀ (m : List (κ × ν)), (m.map Prod.fst).Nodup →
      ((setAList m k v).map Prod.fst).Nodup := by
  intro m
  induction m with
  | nil => intro _; simp [setAList]
  | cons e rest ih =>
      intro h
      obtain ⟨k₀, v₀⟩ := e
      simp only [List.map_cons, List.nodup_cons] at h
      by_cases h0 : k₀ = k
      · simp only [setAList, if_pos h0, List.map_cons, List.nodup_cons]
        exact ⟨h0 ▸ h.1, h.2⟩
      · simp only [setAList, if_neg h0, List.map_cons, List.nodup_cons]
        refine ⟨?_, ih h.2⟩
        intro hmem
        rcases keys_setAList_subset k v rest k₀ hmem with h1 | h1
        · exact h0 h1
        · exact h.1 h1

theorem mem_of_alookup {κ ν : Type} [DecidableEq κ] (k : κ) (v : ν) :
    ∀ (m : List (κ × ν)), alookup m k = some v → (k, v) ∈ m := by
  intro m
  induction m with
  | nil => intro h; simp [alookup] at h
  | cons e rest ih =>
      intro h
      obtain ⟨k₀, v₀⟩ := e
      simp only [alookup] at h
      by_cases h0 : k₀ = k
      · rw [if_pos h0] at h
        cases h
        simp [h0]
      · rw [if_neg h0] at h
        exact List.mem_cons_of_mem _ (ih h)

theorem alookup_of_mem_nodup {κ ν : Type} [DecidableEq κ] (k : κ) (v : ν) :
    ∀ (m : List (κ × ν)), (m.map Prod.fst).Nodup → (k, v) ∈ m → alookup m k = some v := by
  intro m
  induction m with
  | nil => intro _ h; simp at h
  | cons e rest ih =>
      intro hnd h
      obtain ⟨k₀, v₀⟩ := e
      simp only [List.map_cons, List.nodup_cons] at hnd
      rcases List.mem_cons.mp h with h1 | h1
      · cases h1; simp [alookup]
      · have hk : k₀ ≠ k := by
          intro hk
          apply hnd.1
          subst hk
          exact List.mem_map.mpr ⟨(k₀, v), h1, rfl⟩
        simp only [alookup, if_neg hk]
        exact ih hnd.2 h1

theorem filterMap_eq_self_of {α : Type} (f : α → Option α) :
    ∀ (l : List α), (∀ a ∈ l, f a = some a) → l.filterMap f = l := by
  intro l
  induction l with
  | nil => intro _; rfl
  | cons a rest ih =>
      intro h
      rw [List.filterMap_cons, h a (List.mem_cons_self a rest),
        ih (fun x hx => h x (List.mem_cons_of_mem a hx))]

theorem rebuild_go {κ ν : Type} [DecidableEq κ] (f : κ × ν → Option (κ × ν)) :
    ∀ (m acc : List (κ × ν)),
      ((acc ++ m.filterMap f).map Prod.fst).Nodup →
      (m.foldl (fun acc e =>
        match f e with
        | some e' => setAList acc e'.1 e'.2
        | none => acc) acc) = acc ++ m.filterMap f := by
  intro m
  induction m with
  | nil => intro acc _; simp
  | cons e rest ih =>
      intro acc hnd
      rcases hf : f e with _ | e'
      · simp only [List.foldl_cons, hf]
        rw [List.filterMap_cons, hf] at hnd ⊢
        exact ih acc hnd
      · simp only [List.foldl_cons, hf]
        rw [List.filterMap_cons, hf] at hnd ⊢
        have hnd' : (acc.map Prod.fst ++ (e' :: rest.filterMap f).map Prod.fst).Nodup := by
          rw [← List.map_append]; exact hnd
        have hnotin : e'.1 ∉ acc.map Prod.fst := by
          intro hmem
          exact (List.disjoint_of_nodup_append hnd') hmem (by simp)
        rw [setAList_of_not_mem e'.1 e'.2 acc hnotin]
        have hnd2 : (((acc ++ [e']) ++ rest.filterMap f).map Prod.fst).Nodup := by
          rw [List.append_assoc, List.singleton_append]; exact hnd
        rw [ih (acc ++ [e']) hnd2, List.append_assoc, List.singleton_append]

theorem rebuildMap_eq_filterMap {κ ν : Type} [DecidableEq κ]
    (f : κ × ν → Option (κ × ν)) (m : List (κ × ν))
    (hnd : ((m.filterMap f).map Prod.fst).Nodup) :
    rebuildMap f m = m.filterMap f := by
  have := rebuild_go f m [] (by simpa using hnd)
  simpa [rebuildMap] using this

theorem filterMap_some_comp {α β : Type} (g : α → β) :
    ∀ (l : List α), l.filterMap (fun a => some (g a)) = l.map g := by
  intro l
  induction l with
  | nil => rfl
  | cons a rest ih => simp only [List.filterMap_cons, List.map_cons, ih]

theorem filterMap_map_cancel {α β : Type} (g : α → β) (f : β → Option α)
    (h : ∀ a, f (g a) = some a) :
    ∀ (l : List α), (l.map g).filterMap f = l := by
  intro l
  induction l with
  | nil => rfl
  | cons a rest ih => simp only [List.map_cons, List.filterMap_cons, h a, ih]

/-- Inserting then removing at the same index cancels on any JS map with
distinct keys, provided the downward reindexing inverts the upward one. -/
theorem rebuild_round_trip {κ ν : Type} [DecidableEq κ]
    (u : κ → κ) (fdown : κ × ν → Option (κ × ν)) (m : List (κ × ν))
    (hnd : (m.map Prod.fst).Nodup) (hinj : Function.Injective u)
    (hdu : ∀ e : κ × ν, fdown (u e.1, e.2) = some e) :
    rebuildMap fdown (rebuildMap (fun e => some (u e.1, e.2)) m) = m := by
  have h1 : rebuildMap (fun e => some (u e.1, e.2)) m
      = m.map (fun e => (u e.1, e.2)) := by
    rw [rebuildMap_eq_filterMap, filterMap_some_comp]
    rw [filterMap_some_comp]
    have : (m.map (fun e : κ × ν => (u e.1, e.2))).map Prod.fst
        = (m.map Prod.fst).map u := by
      rw [List.map_map, List.map_map]; rfl
    rw [this]
    exact hnd.map hinj
  rw [h1]
  have h2 : (m.map (fun e : κ × ν => (u e.1, e.2))).filterMap fdown = m :=
    filterMap_map_cancel _ fdown hdu m
  rw [rebuildMap_eq_filterMap, h2]
  rw [h2]
  exact hnd

theorem eraseIdx_spliceInsert {α : Type} (a : α) :
    ∀ (l : List α) (i : Nat), i ≤ l.length → (spliceInsert l i a).eraseIdx i = l := by
  intro l
  induction l with
  | nil =>
      intro i h
      cases i with
      | zero => rfl
      | succ n => exact absurd h (by simp)
  | cons x xs ih =>
      intro i h
      cases i with
      | zero => rfl
      | succ n =>
          have hs : spliceInsert (x :: xs) (n + 1) a = x :: spliceInsert xs n a := by
            simp [spliceInsert]
          rw [hs, List.eraseIdx_cons_succ, ih n (by simpa using h)]

/-! ## Claim C3: insert-then-remove round trip -/

/-- **C3**.  Inserting a tuple at index `i` (any valid insertion point)
and then removing the tuple at index `i` restores the tuple list, the
loaded-image cache, the winners map, and the `recentlyDeleted` entries
exactly.  Key distinctness of the two JS maps is an invariant of every
reachable state (a `Map` cannot hold a key twice). -/
theorem insert_remove_round_trip (st : SState) (t : STuple) (i : Nat)
    (hi : i ≤ st.tuples.length)
    (hc : (st.loadedImages.map Prod.fst).Nodup)
    (hw : (st.winners.map Prod.fst).Nodup) :
    (removeTuple (insertTuple st i t) i).tuples = st.tuples ∧
    (removeTuple (insertTuple st i t) i).loadedImages = st.loadedImages ∧
    (removeTuple (insertTuple st i t) i).winners = st.winners ∧
    (removeTuple (insertTuple st i t) i).recentlyDeleted = st.recentlyDeleted := by
  refine ⟨?_, ?_, ?_, ?_⟩
  · show (spliceInsert st.tuples i t).eraseIdx i = st.tuples
    exact eraseIdx_spliceInsert t st.tuples i hi
  · show rebuildMap _ (rebuildMap _ st.loadedImages) = st.loadedImages
    have hfe : (fun e : (Nat × Nat) × Nat =>
        if i ≤ e.1.1 then some ((e.1.1 + 1, e.1.2), e.2) else some e)
        = (fun e : (Nat × Nat) × Nat =>
            some ((if i ≤ e.1.1 then (e.1.1 + 1, e.1.2) else e.1), e.2)) := by
      funext e
      by_cases h : i ≤ e.1.1 <;> simp [h]
    rw [hfe]
    exact rebuild_round_trip (fun k => if i ≤ k.1 then (k.1 + 1, k.2) else k)
      (fun e => if i < e.1.1 then some ((e.1.1 - 1, e.1.2), e.2)
        else if e.1.1 < i then some e else none)
      st.loadedImages hc
      (by
        intro k1 k2 h
        obtain ⟨a1, b1⟩ := k1
        obtain ⟨a2, b2⟩ := k2
        dsimp only at h
        simp only [Prod.mk.injEq]
        by_cases h1 : i ≤ a1 <;> by_cases h2 : i ≤ a2
        · rw [if_pos h1, if_pos h2] at h
          simp only [Prod.mk.injEq] at h
          obtain ⟨ha, hb⟩ := h
          exact ⟨by omega, hb⟩
        · rw [if_pos h1, if_neg h2] at h
          simp only [Prod.mk.injEq] at h
          obtain ⟨ha, hb⟩ := h
          exact ⟨by omega, hb⟩
        · rw [if_neg h1, if_pos h2] at h
          simp only [Prod.mk.injEq] at h
          obtain ⟨ha, hb⟩ := h
          exact ⟨by omega, hb⟩
        · rw [if_neg h1, if_neg h2] at h
          simp only [Prod.mk.injEq] at h
          exact h)
      (by
        intro e
        by_cases h : i ≤ e.1.1
        · simp only [if_pos h]
          have h1 : i < e.1.1 + 1 := by omega
          simp only [if_pos h1, Nat.add_sub_cancel]
        · simp only [if_neg h]
          have h1 : ¬ i < e.1.1 := by omega
          have h2 : e.1.1 < i := by omega
          simp only [if_neg h1, if_pos h2])
  · show rebuildMap _ (rebuildMap _ st.winners) = st.winners
    have hfe : (fun e : Nat × Nat => if i ≤ e.1 then some (e.1 + 1, e.2) else some e)
        = (fun e : Nat × Nat => some ((if i ≤ e.1 then e.1 + 1 else e.1), e.2)) := by
      funext e
      by_cases h : i ≤ e.1 <;> simp [h]
    rw [hfe]
    exact rebuild_round_trip (fun k => if i ≤ k then k + 1 else k)
      (fun e => if i < e.1 then some (e.1 - 1, e.2)
        else if e.1 < i then some e else none)
      st.winners hw
      (by
        intro k1 k2 h
        dsimp only at h
        by_cases h1 : i ≤ k1 <;> by_cases h2 : i ≤ k2
        · rw [if_pos h1, if_pos h2] at h; omega
        · rw [if_pos h1, if_neg h2] at h; omega
        · rw [if_neg h1, if_pos h2] at h; omega
        · rw [if_neg h1, if_neg h2] at h; omega)
      (by
        intro e
        by_cases h : i ≤ e.1
        · simp only [if_pos h]
          have h1 : i < e.1 + 1 := by omega
          simp only [if_pos h1, Nat.add_sub_cancel]
        · simp only [if_neg h]
          have h1 : ¬ i < e.1 := by omega
          have h2 : e.1 < i := by omega
          simp only [if_neg h1, if_pos h2])
  · show ((st.recentlyDeleted.map _).filter _).map _ = st.recentlyDeleted
    induction st.recentlyDeleted with
    | nil => rfl
    | cons d rest ih =>
        simp only [List.map_cons]
        by_cases h : i ≤ d.tupleIndex
        · rw [if_pos h]
          have h1 : d.tupleIndex + 1 ≠ i := by omega
          have h2 : i < d.tupleIndex + 1 := by omega
          simp only [List.filter_cons]
          rw [if_pos (by simpa using h1)]
          simp only [List.map_cons]
          rw [if_pos h2]
          simp only [Nat.add_sub_cancel]
          rw [ih]
        · rw [if_neg h]
          have h1 : d.tupleIndex ≠ i := by omega
          have h2 : ¬ i < d.tupleIndex := by omega
          simp only [List.filter_cons]
          rw [if_pos (by simpa using h1)]
          simp only [List.map_cons]
          rw [if_neg h2]
          rw [ih]

/-- Witness for C3 at a concrete two-tuple state. -/
theorem insert_remove_round_trip_witness :
    (removeTuple (insertTuple stFix 1 tupFix) 1).tuples = stFix.tuples ∧
    (removeTuple (insertTuple stFix 1 tupFix) 1).loadedImages = stFix.loadedImages ∧
    (removeTuple (insertTuple stFix 1 tupFix) 1).winners = stFix.winners ∧
    (removeTuple (insertTuple stFix 1 tupFix) 1).recentlyDeleted = stFix.recentlyDeleted :=
  insert_remove_round_trip stFix tupFix 1 (by decide) (by decide) (by decide)

/-! ## Claim C5: order of the rename-candidate heuristics -/

/-- **C5 counterexample.**  A same-directory candidate (`/p/A/g.png`, same
directory as the created `/p/A/f.png`) is present in `recentlyDeleted`,
yet the search returns the earlier-listed sibling-modality candidate
`/p/B/f.png`, which is *not* in the same directory.  The same-directory
heuristic is therefore not "always preferred". -/
theorem rename_heuristics_order_cex :
    (⟨"/p/A/g.png", 1, 0, 100⟩ : SDeleted) ∈ stRenameFix.recentlyDeleted ∧
    dirname "/p/A/g.png" = dirname "/p/A/f.png" ∧
    findMatchingDeletedFile stRenameFix "/p/A/f.png" = some ⟨"/p/B/f.png", 0, 1, 100⟩ ∧
    dirname "/p/B/f.png" ≠ dirname "/p/A/f.png" := by
  decide

/-- The rename-candidate scan is the first-match search over the
disjunction of the two heuristics. -/
theorem findDeleted_spec (st : SState) (u : String) :
    findMatchingDeletedFile st u = st.recentlyDeleted.find? (deletedMatchPred st u) := by
  show findDeletedGo st u st.recentlyDeleted = _
  induction st.recentlyDeleted with
  | nil => rfl
  | cons d rest ih =>
      rw [List.find?]
      by_cases h1 : dirname u = dirname d.uri
      · have hp : deletedMatchPred st u d = true := by
          simp only [deletedMatchPred, h1, decide_True, Bool.true_or]
        rw [hp]
        simp only [findDeletedGo, if_pos h1]
      · by_cases h2 : dirname (dirname u) = dirname (dirname d.uri) ∧ st.isMultiTupleMode = true
        · by_cases h3 : basename d.uri = basename u
          · have hp : deletedMatchPred st u d = true := by
              simp only [deletedMatchPred, h2.1, h2.2, h3]
              simp [h1]
            rw [hp]
            simp only [findDeletedGo, if_neg h1]
            rw [if_pos (by exact ⟨h2.1, h2.2⟩), if_pos h3]
          · have hp : deletedMatchPred st u d = false := by
              simp only [deletedMatchPred]
              simp [h1, h3]
            rw [hp]
            simp only [findDeletedGo, if_neg h1]
            rw [if_pos (by exact ⟨h2.1, h2.2⟩), if_neg h3]
            exact ih
        · have hp : deletedMatchPred st u d = false := by
            simp only [deletedMatchPred]
            rcases not_and_or.mp h2 with h | h
            · simp [h1, h]
            · have : st.isMultiTupleMode = false := by
                cases hb : st.isMultiTupleMode
                · rfl
                · exact absurd hb h
              simp [h1, this]
          rw [hp]
          simp only [findDeletedGo, if_neg h1]
          rw [if_neg (by
            intro hand
            exact h2 ⟨hand.1, hand.2⟩)]
          exact ih

/-- **C5 amended.**  The search scans `recentlyDeleted` in list order and
returns the first entry satisfying *either* heuristic — same directory,
or (in multi-tuple mode) sibling directory under the same parent with a
byte-identical filename.  Both heuristics are tried on each entry before
moving to the next, so an earlier sibling-modality candidate wins over a
later same-directory candidate. -/
theorem rename_candidate_first_match (st : SState) (u : String) :
    findMatchingDeletedFile st u = st.recentlyDeleted.find? (deletedMatchPred st u) :=
  findDeleted_spec st u

/-! ## Claim C6: idempotence of Deleted(path) -/

theorem firstIdxWhere_none_iff {α : Type} (pr : α → Bool) :
    ∀ l : List α, firstIdxWhere pr l = none ↔ ∀ x ∈ l, pr x = false := by
  intro l
  induction l with
  | nil => simp [firstIdxWhere]
  | cons x xs ih =>
      by_cases h : pr x = true
      · simp [firstIdxWhere, h]
      · simp only [Bool.not_eq_true] at h
        simp [firstIdxWhere, h, ih]

theorem firstIdxWhere_eraseIdx_none {α : Type} (pr : α → Bool) :
    ∀ (l : List α) (i : Nat), firstIdxWhere pr l = some i → l.countP pr ≤ 1 →
      firstIdxWhere pr (l.eraseIdx i) = none := by
  intro l
  induction l with
  | nil => intro i h _; simp [firstIdxWhere] at h
  | cons x xs ih =>
      intro i h hcount
      rw [List.countP_cons] at hcount
      by_cases hx : pr x = true
      · rw [firstIdxWhere, if_pos hx] at h
        cases h
        show firstIdxWhere pr xs = none
        rw [firstIdxWhere_none_iff]
        intro y hy
        have hone : (if pr x = true then 1 else 0) = 1 := if_pos hx
        rw [hone] at hcount
        have h0 : xs.countP pr = 0 := by omega
        have := List.countP_eq_zero.mp h0 y hy
        simpa using this
      · rw [firstIdxWhere, if_neg hx] at h
        rcases hmap : firstIdxWhere pr xs with _ | j
        · rw [hmap] at h; simp at h
        · rw [hmap] at h
          simp only [Option.map_some'] at h
          cases h
          show firstIdxWhere pr (x :: xs.eraseIdx j) = none
          rw [firstIdxWhere, if_neg hx, ih j hmap ?_]
          · rfl
          · simp only [Bool.not_eq_true] at hx
            rw [hx] at hcount; simpa using hcount

theorem firstImageSlot_none_iff (p : String) :
    ∀ l : List STuple, firstImageSlot l p = none ↔
      ∀ t ∈ l, ∀ img ∈ t.images, img.uri ≠ p := by
  intro l
  induction l with
  | nil => simp [firstImageSlot]
  | cons t rest ih =>
      have hstep : firstImageSlot (t :: rest) p =
          (match t.images.find? (fun img => img.uri = p) with
           | some img => some (0, img)
           | none => (firstImageSlot rest p).map (fun q => (q.1 + 1, q.2))) := rfl
      rcases hf : t.images.find? (fun img => img.uri = p) with _ | img
      · rw [hstep, hf]
        have hnone : ∀ img ∈ t.images, img.uri ≠ p := by
          intro img hmem
          have := List.find?_eq_none.mp hf img hmem
          simpa using this
        simp only [Option.map_eq_none', ih]
        constructor
        · intro hr t' ht' img hmem
          rcases List.mem_cons.mp ht' with h1 | h1
          · exact hnone img (h1 ▸ hmem)
          · exact hr t' h1 img hmem
        · intro hall t' ht' img hmem
          exact hall t' (List.mem_cons_of_mem t ht') img hmem
      · rw [hstep, hf]
        constructor
        · intro hr; exact Option.noConfusion hr
        · intro hall
          exfalso
          have hmem := List.mem_of_find?_eq_some hf
          have huri : img.uri = p := by simpa using List.find?_some hf
          exact hall t (List.mem_cons_self t rest) img hmem huri

/-- **C6**.  First conjunct: a second `Deleted(path)` applied to the
result of a first one is a no-op (same final state as applying the
notification once).  The sanity hypotheses hold in every reachable
state: at most one modality matches the path as its directory, and when
the path is a modality directory it is not also some slot's stored file
path.  Second conjunct: a `Deleted(path)` arriving after finalization —
the path is gone from `recentlyDeleted`, no slot holds it, and it is no
modality directory — is ignored outright. -/
theorem delete_idempotent :
    (∀ (st : SState) (p : String) (t1 t2 : Nat),
      st.modalities.countP (matchesModalityDir st p) ≤ 1 →
      ((modalityDirIndex st p).isSome →
        ∀ tp ∈ st.tuples, ∀ img ∈ tp.images, img.uri ≠ p) →
      handleFileDeleted (handleFileDeleted st p t1) p t2 = handleFileDeleted st p t1) ∧
    (∀ (st : SState) (p : String) (t : Nat),
      (∀ d ∈ st.recentlyDeleted, d.uri ≠ p) →
      modalityDirIndex st p = none →
      (∀ tp ∈ st.tuples, ∀ img ∈ tp.images, img.uri ≠ p) →
      handleFileDeleted st p t = st) := by
  have hignored : ∀ (st : SState) (p : String) (t : Nat),
      st.recentlyDeleted.any (fun d => d.uri = p) = false →
      modalityDirIndex st p = none →
      firstImageSlot st.tuples p = none →
      handleFileDeleted st p t = st := by
    intro st p t hg hd hs
    simp [handleFileDeleted, hg, hd, hs]
  constructor
  · intro st p t1 t2 hdirs himg
    by_cases hguard : st.recentlyDeleted.any (fun d => d.uri = p) = true
    · have h1 : handleFileDeleted st p t1 = st := by
        simp [handleFileDeleted, hguard]
      rw [h1]
      simp [handleFileDeleted, hguard]
    · rw [Bool.not_eq_true] at hguard
      rcases hdir : modalityDirIndex st p with _ | mIdx
      · rcases hslot : firstImageSlot st.tuples p with _ | q
        · have h1 : handleFileDeleted st p t1 = st :=
            hignored st p t1 hguard hdir hslot
          rw [h1]
          exact hignored st p t2 hguard hdir hslot
        · obtain ⟨ti, img⟩ := q
          have h2 : (handleFileDeleted st p t1).recentlyDeleted.any
              (fun d => d.uri = p) = true := by
            simp [handleFileDeleted, hguard, hdir, hslot, cleanupRecentlyDeleted]
          set st1 := handleFileDeleted st p t1 with hst1
          simp [handleFileDeleted, h2]
      · have h1 : handleFileDeleted st p t1 = removeModality st mIdx := by
          simp [handleFileDeleted, hguard, hdir]
        rw [h1]
        have hg2 : (removeModality st mIdx).recentlyDeleted.any
            (fun d => d.uri = p) = false := by
          simpa [removeModality] using hguard
        have hmd : matchesModalityDir (removeModality st mIdx) p
            = matchesModalityDir st p := by
          funext m
          simp [matchesModalityDir, removeModality]
        have hd2 : modalityDirIndex (removeModality st mIdx) p = none := by
          show firstIdxWhere (matchesModalityDir (removeModality st mIdx) p)
            (removeModality st mIdx).modalities = none
          rw [hmd]
          have hmods : (removeModality st mIdx).modalities
              = st.modalities.eraseIdx mIdx := by
            simp [removeModality]
          rw [hmods]
          exact firstIdxWhere_eraseIdx_none _ st.modalities mIdx hdir hdirs
        have hs2 : firstImageSlot (removeModality st mIdx).tuples p = none := by
          rw [firstImageSlot_none_iff]
          intro tp htp img hmem
          have htp' : tp ∈ st.tuples.map (fun t =>
              { t with images := (t.images.filter
                  (fun img => img.modality ≠ st.modalities.getD mIdx "")) }) := by
            simpa [removeModality] using htp
          rcases List.mem_map.mp htp' with ⟨t0, ht0, rfl⟩
          have hmem' : img ∈ t0.images := List.mem_of_mem_filter hmem
          exact himg (by rw [hdir]; rfl) t0 ht0 img hmem'
        exact hignored _ p t2 hg2 hd2 hs2
  · intro st p t hrd hdir hslot
    apply hignored st p t
    · rw [List.any_eq_false]
      intro d hd
      simpa using hrd d hd
    · exact hdir
    · rw [firstImageSlot_none_iff]
      exact hslot

/-- Witness for C6: a real deletion followed by a duplicate notification,
and an unknown-path deletion that is ignored. -/
theorem delete_idempotent_witness :
    (handleFileDeleted (handleFileDeleted stFix "/d/A/a.png" 100) "/d/A/a.png" 200
      = handleFileDeleted stFix "/d/A/a.png" 100) ∧
    handleFileDeleted stFix "/nope/x.png" 100 = stFix :=
  ⟨delete_idempotent.1 stFix "/d/A/a.png" 100 200 (by decide) (by decide),
   delete_idempotent.2 stFix "/nope/x.png" 100 (by decide) (by decide) (by decide)⟩

/-! ## Claim C10: frame of an unmatched create outside multi-tuple mode -/

/-- **C10 counterexample.**  At `stStaleFix` the created path
`/x/new.png` is an image that matches no slot and no rename candidate,
and the session is not in multi-tuple mode — yet the handler is not a
pure no-op: the intake cleanup prunes the stale `recentlyDeleted` entry
(5000 − 0 ≥ 2000 ms), so a `recentlyDeleted` entry *is* removed. -/
theorem created_nonmulti_frame_cex :
    stStaleFix.isMultiTupleMode = false ∧
    findExistingSlotByUri stStaleFix "/x/new.png" = none ∧
    findMatchingDeletedFile stStaleFix "/x/new.png" = none ∧
    isImageFile (basename "/x/new.png") = true ∧
    (handleFileCreated stStaleFix "/x/new.png" 5000).recentlyDeleted = [] ∧
    stStaleFix.recentlyDeleted ≠ [] := by
  decide

/-- **C10 amended.**  For a created image file matching no slot and no
rename candidate, outside multi-tuple mode, the handler leaves tuples,
modalities, winners, the image cache and the current index unchanged;
the only state change is the intake cleanup, which prunes
`recentlyDeleted` entries two seconds old or older (non-image paths
change nothing at all). -/
theorem created_nonmulti_frame (st : SState) (u : String) (now : Nat)
    (hmulti : st.isMultiTupleMode = false)
    (hslot : ∀ t ∈ st.tuples, ∀ img ∈ t.images, img.uri ≠ u)
    (hmatch : ∀ d ∈ st.recentlyDeleted, deletedMatchPred st u d = false) :
    (handleFileCreated st u now).tuples = st.tuples ∧
    (handleFileCreated st u now).modalities = st.modalities ∧
    (handleFileCreated st u now).winners = st.winners ∧
    (handleFileCreated st u now).loadedImages = st.loadedImages ∧
    (handleFileCreated st u now).currentTupleIndex = st.currentTupleIndex ∧
    (handleFileCreated st u now).recentlyDeleted =
      (if isImageFile (basename u) = true then
        st.recentlyDeleted.filter (fun d => now - d.timestamp < 2000)
       else st.recentlyDeleted) := by
  rcases himg : isImageFile (basename u) with _ | _
  · have h1 : handleFileCreated st u now = st := by
      simp [handleFileCreated, himg]
    rw [h1, if_neg (by simp [himg])]
    exact ⟨rfl, rfl, rfl, rfl, rfl, rfl⟩
  · have hslot1 : firstImageSlot (cleanupRecentlyDeleted st now).tuples u = none := by
      rw [firstImageSlot_none_iff]
      intro t ht img hm
      exact hslot t ht img hm
    have hfe : findExistingSlotByUri (cleanupRecentlyDeleted st now) u = none := by
      simp [findExistingSlotByUri, hslot1]
    have hfm : findMatchingDeletedFile (cleanupRecentlyDeleted st now) u = none := by
      rw [findDeleted_spec]
      rw [List.find?_eq_none]
      intro d hd
      have hd0 : d ∈ st.recentlyDeleted := List.mem_of_mem_filter hd
      have : deletedMatchPred st u d = false := hmatch d hd0
      simpa using this
    have hm1 : (cleanupRecentlyDeleted st now).isMultiTupleMode = false := hmulti
    have h1 : handleFileCreated st u now = cleanupRecentlyDeleted st now := by
      simp [handleFileCreated, himg, hfe, hfm, handleNewFile, hm1]
    rw [h1, if_pos rfl]
    exact ⟨rfl, rfl, rfl, rfl, rfl, rfl⟩

/-- Witness for C10 at a fully fresh `recentlyDeleted` (nothing pruned). -/
theorem created_nonmulti_frame_witness :
    (handleFileCreated stStaleFix "/x/new.png" 100).tuples = stStaleFix.tuples ∧
    (handleFileCreated stStaleFix "/x/new.png" 100).modalities = stStaleFix.modalities ∧
    (handleFileCreated stStaleFix "/x/new.png" 100).winners = stStaleFix.winners ∧
    (handleFileCreated stStaleFix "/x/new.png" 100).loadedImages = stStaleFix.loadedImages ∧
    (handleFileCreated stStaleFix "/x/new.png" 100).currentTupleIndex
      = stStaleFix.currentTupleIndex ∧
    (handleFileCreated stStaleFix "/x/new.png" 100).recentlyDeleted =
      (if isImageFile (basename "/x/new.png") = true then
        stStaleFix.recentlyDeleted.filter (fun d => 100 - d.timestamp < 2000)
       else stStaleFix.recentlyDeleted) :=
  created_nonmulti_frame stStaleFix "/x/new.png" 100 (by decide) (by decide) (by decide)

/-! ## Claim C2: rename within the grace window -/

theorem updateFirstImage_append (mname p2 fn : String) :
    ∀ (pre : List SImage) (img0 : SImage) (post : List SImage),
      (∀ im ∈ pre, im.modality ≠ mname) → img0.modality = mname →
      updateFirstImage (pre ++ img0 :: post) mname p2 fn
        = pre ++ ({ img0 with uri := p2, name := fn }) :: post := by
  intro pre
  induction pre with
  | nil =>
      intro img0 post _ hm
      simp [updateFirstImage, hm]
  | cons a rest ih =>
      intro img0 post hpre hm
      have ha : a.modality ≠ mname := hpre a (List.mem_cons_self a rest)
      simp only [List.cons_append, updateFirstImage, if_neg ha, List.append_eq]
      rw [ih img0 post (fun im hmem => hpre im (List.mem_cons_of_mem a hmem)) hm]

theorem delAList_idem {κ ν : Type} [DecidableEq κ] (m : List (κ × ν)) (k : κ) :
    delAList (delAList m k) k = delAList m k := by
  simp [delAList, List.filter_filter]

/-- **C2**.  From a state with no pending deletions, `Deleted(p1)` on the
slot `(ti, indexOf mname)` followed within the grace window by
`Created(p2)` in the same directory: the tuple keeps its index `ti`, the
winners map is untouched (so a winner pointing at the slot survives),
the grace-window candidate is removed again from `recentlyDeleted`, and
the only change to the tuple is the renamed image's stored path and
display name; the slot's cache entry is evicted.  The pending finalize
check then fires as a no-op. -/
theorem rename_grace_window (st : SState) (p1 p2 : String) (t0 t1 : Nat)
    (ti : Nat) (tup : STuple) (img0 : SImage) (mname : String)
    (pre post : List SImage)
    (hrd : st.recentlyDeleted = [])
    (hdir0 : modalityDirIndex st p1 = none)
    (hslot : firstImageSlot st.tuples p1 = some (ti, img0))
    (htup : st.tuples.get? ti = some tup)
    (himgs : tup.images = pre ++ img0 :: post)
    (hpre : ∀ im ∈ pre, im.modality ≠ mname)
    (hmod : img0.modality = mname)
    (hget : st.modalities.getD (st.modalities.indexOf mname) "" = mname)
    (himg2 : isImageFile (basename p2) = true)
    (hnew : ∀ t ∈ st.tuples, ∀ im ∈ t.images, im.uri ≠ p2)
    (hsame : dirname p2 = dirname p1)
    (htime : t1 - t0 < 500) :
    (handleFileCreated (handleFileDeleted st p1 t0) p2 t1).tuples
        = st.tuples.set ti
            { tup with images := pre ++ ({ img0 with uri := p2, name := basename p2 }) :: post } ∧
    (handleFileCreated (handleFileDeleted st p1 t0) p2 t1).winners = st.winners ∧
    (handleFileCreated (handleFileDeleted st p1 t0) p2 t1).recentlyDeleted = [] ∧
    (handleFileCreated (handleFileDeleted st p1 t0) p2 t1).modalities = st.modalities ∧
    (handleFileCreated (handleFileDeleted st p1 t0) p2 t1).currentTupleIndex
        = st.currentTupleIndex ∧
    (handleFileCreated (handleFileDeleted st p1 t0) p2 t1).loadedImages
        = delAList st.loadedImages (ti, st.modalities.indexOf mname) ∧
    finalizeDelete (handleFileCreated (handleFileDeleted st p1 t0) p2 t1)
        ti (st.modalities.indexOf mname) mname
      = handleFileCreated (handleFileDeleted st p1 t0) p2 t1 := by
  have hguard : st.recentlyDeleted.any (fun d => d.uri = p1) = false := by
    rw [hrd]; rfl
  have hmid : handleFileDeleted st p1 t0 = { st with
      recentlyDeleted := [⟨p1, ti, st.modalities.indexOf mname, t0⟩],
      loadedImages := delAList st.loadedImages (ti, st.modalities.indexOf mname) } := by
    simp only [handleFileDeleted, hguard, Bool.false_eq_true, if_false, hdir0, hslot,
      cleanupRecentlyDeleted, hrd, hmod]
    simp
  rw [hmid]
  set stMid : SState := { st with
      recentlyDeleted := [⟨p1, ti, st.modalities.indexOf mname, t0⟩],
      loadedImages := delAList st.loadedImages (ti, st.modalities.indexOf mname) }
    with hstMid
  have hkeep : t1 - t0 < 2000 := by omega
  have hclean : cleanupRecentlyDeleted stMid t1 = stMid := by
    simp [cleanupRecentlyDeleted, hstMid, hkeep]
  have hfe : findExistingSlotByUri stMid p2 = none := by
    have h0 : firstImageSlot stMid.tuples p2 = none := by
      rw [firstImageSlot_none_iff]
      intro t ht im hm
      exact hnew t ht im hm
    simp [findExistingSlotByUri, h0]
  have hfm : findMatchingDeletedFile stMid p2
      = some ⟨p1, ti, st.modalities.indexOf mname, t0⟩ := by
    simp [findMatchingDeletedFile, hstMid, findDeletedGo, hsame]
  have hstep : handleFileCreated stMid p2 t1 = { stMid with
      tuples := st.tuples.set ti
        { tup with images := pre ++ ({ img0 with uri := p2, name := basename p2 }) :: post },
      recentlyDeleted := [],
      loadedImages := delAList stMid.loadedImages (ti, st.modalities.indexOf mname) } := by
    simp only [handleFileCreated, himg2, Bool.true_eq_false, if_false, hclean, hfe, hfm]
    have htup' : stMid.tuples.get? ti = some tup := htup
    simp only [htup', hget]
    rw [himgs, updateFirstImage_append mname p2 (basename p2) pre img0 post hpre hmod]
    simp [hstMid]
  rw [hstep]
  refine ⟨rfl, rfl, rfl, rfl, rfl, ?_, ?_⟩
  · show delAList (delAList st.loadedImages _) _ = _
    exact delAList_idem st.loadedImages (ti, st.modalities.indexOf mname)
  · simp [finalizeDelete]

/-- Witness for C2: deleting `/d/A/img1.png` at 1000 ms and creating
`/d/A/img1renamed.png` at 1200 ms preserves the winner and resolves the
pending deletion. -/
theorem rename_grace_window_witness :
    (handleFileCreated (handleFileDeleted stGraceFix "/d/A/img1.png" 1000)
        "/d/A/img1renamed.png" 1200).winners = stGraceFix.winners ∧
    (handleFileCreated (handleFileDeleted stGraceFix "/d/A/img1.png" 1000)
        "/d/A/img1renamed.png" 1200).recentlyDeleted = [] := by
  have h := rename_grace_window stGraceFix "/d/A/img1.png" "/d/A/img1renamed.png"
    1000 1200 0
    ⟨"img1", [⟨"/d/A/img1.png", "img1.png", "A"⟩, ⟨"/d/B/img1.png", "img1.png", "B"⟩]⟩
    ⟨"/d/A/img1.png", "img1.png", "A"⟩ "A"
    [] [⟨"/d/B/img1.png", "img1.png", "B"⟩]
    rfl (by decide) (by decide) rfl rfl (by decide) rfl (by decide) (by decide)
    (by decide) (by decide) (by decide)
  exact ⟨h.2.1, h.2.2.1⟩

/-! ## Claim C4: occupied best match forces a brand-new tuple -/

/-- One scan step either leaves the accumulator alone, or selects the
current tuple, whose slot-freeness and a best length equal to its own
(non-negative) match length it then records. -/
theorem scanStep_cases (mname base : String) (acc : ScanSt) (p : Nat × STuple) :
    scanStep mname base acc p = acc ∨
    ((scanStep mname base acc p).bestFree
        = !(p.2.images.any (fun img => img.modality = mname)) ∧
     (scanStep mname base acc p).bestLen = tupleMatchLen p.2 base ∧
     0 ≤ tupleMatchLen p.2 base ∧
     acc.bestLen ≤ tupleMatchLen p.2 base) := by
  simp only [scanStep]
  split
  · exact Or.inl rfl
  · next h0 =>
      split
      · next h1 => exact Or.inr ⟨rfl, rfl, by omega, by omega⟩
      · next h1 =>
          split
          · next h2 => exact Or.inr ⟨rfl, by simp [h2.1], by omega, by omega⟩
          · exact Or.inl rfl

theorem scanStep_bestLen_le (mname base : String) (acc : ScanSt) (p : Nat × STuple) :
    acc.bestLen ≤ (scanStep mname base acc p).bestLen := by
  rcases scanStep_cases mname base acc p with h | ⟨_, h2, _, h4⟩
  · rw [h]
  · rw [h2]; exact h4

theorem scanStep_self_bound (mname base : String) (acc : ScanSt) (p : Nat × STuple) :
    tupleMatchLen p.2 base < 0 ∨
    tupleMatchLen p.2 base ≤ (scanStep mname base acc p).bestLen := by
  simp only [scanStep]
  split
  · next h0 => exact Or.inl h0
  · next h0 =>
      right
      split
      · exact le_refl _
      · next h1 =>
          split
          · next h2 => exact le_of_eq h2.1
          · omega

theorem scanFold_bestLen_mono (mname base : String) :
    ∀ (l : List (Nat × STuple)) (acc : ScanSt),
      acc.bestLen ≤ (l.foldl (scanStep mname base) acc).bestLen := by
  intro l
  induction l with
  | nil => intro acc; exact le_refl _
  | cons p l ih =>
      intro acc
      rw [List.foldl_cons]
      exact le_trans (scanStep_bestLen_le mname base acc p) (ih _)

theorem scanFold_bound (mname base : String) :
    ∀ (l : List (Nat × STuple)) (acc : ScanSt) (p : Nat × STuple), p ∈ l →
      tupleMatchLen p.2 base < 0 ∨
      tupleMatchLen p.2 base ≤ (l.foldl (scanStep mname base) acc).bestLen := by
  intro l
  induction l with
  | nil => intro acc p h; exact absurd h (List.not_mem_nil p)
  | cons q l ih =>
      intro acc p h
      rw [List.foldl_cons]
      rcases List.mem_cons.mp h with h1 | h1
      · subst h1
        rcases scanStep_self_bound mname base acc p with h2 | h2
        · exact Or.inl h2
        · exact Or.inr (le_trans h2 (scanFold_bestLen_mono mname base l _))
      · exact ih _ p h1

/-- If the scan ends with `bestSlotFree = true`, either the flag was
already set and the best length never moved, or some scanned tuple has a
free slot for this modality and a (non-negative) match length equal to
the final best length. -/
theorem scanFold_free_source (mname base : String) :
    ∀ (l : List (Nat × STuple)) (acc : ScanSt),
      (l.foldl (scanStep mname base) acc).bestFree = true →
      (acc.bestFree = true ∧ (l.foldl (scanStep mname base) acc).bestLen = acc.bestLen) ∨
      (∃ p, p ∈ l ∧ (p.2.images.any (fun img => img.modality = mname)) = false ∧
        0 ≤ tupleMatchLen p.2 base ∧
        tupleMatchLen p.2 base = (l.foldl (scanStep mname base) acc).bestLen) := by
  intro l
  induction l with
  | nil => intro acc h; exact Or.inl ⟨h, rfl⟩
  | cons p l ih =>
      intro acc h
      rw [List.foldl_cons] at h ⊢
      rcases ih (scanStep mname base acc p) h with ⟨hf1, hlen1⟩ | ⟨p', hmem, hfree, hpos, hlen⟩
      · rcases scanStep_cases mname base acc p with hc | ⟨hbf, hbl, hpos, _⟩
        · rw [hc] at hf1 hlen1
          rw [hc]
          exact Or.inl ⟨hf1, hlen1⟩
        · refine Or.inr ⟨p, List.mem_cons_self p l, ?_, hpos, ?_⟩
          · rw [hbf] at hf1
            simpa using hf1
          · rw [hlen1, hbl]
      · exact Or.inr ⟨p', List.mem_cons_of_mem p hmem, hfree, hpos, hlen⟩

/-- **C4**.  A genuinely new file in a known modality whose every
maximal-scoring tuple (under the most-specific-match rule) has the
modality slot already occupied is *not* attached to any tuple — in
particular not to a lower-scoring one.  Instead the engine builds a
brand-new tuple holding only this file and inserts it at
`currentTupleIndex + 1`; `insertTuple` shifts tuple indices at or above
the insertion point up by one across winners, the image cache and
`recentlyDeleted`. -/
theorem occupied_best_creates_new_tuple (st : SState) (u fname mname : String)
    (hmulti : st.isMultiTupleMode = true)
    (hres : resolveModality st u = some mname)
    (hknown : firstIdxWhere (fun m => m = mname) st.modalities ≠ none)
    (hocc : ∀ p ∈ st.tuples.enum, 0 ≤ tupleMatchLen p.2 (stripExtension fname) →
      (∀ q ∈ st.tuples.enum,
        tupleMatchLen q.2 (stripExtension fname) ≤ tupleMatchLen p.2 (stripExtension fname)) →
      (p.2.images.any (fun img => img.modality = mname)) = true) :
    handleNewFile st u fname
      = insertTuple st (st.currentTupleIndex + 1)
          ⟨stripExtension fname, [⟨u, fname, mname⟩]⟩ := by
  rcases hk : firstIdxWhere (fun m => m = mname) st.modalities with _ | mi
  · exact absurd hk hknown
  · have hbf : (st.tuples.enum.foldl (scanStep mname (stripExtension fname))
        ⟨none, -1, false⟩).bestFree = false := by
      by_contra hb
      rw [Bool.not_eq_false] at hb
      rcases scanFold_free_source mname (stripExtension fname) st.tuples.enum
          ⟨none, -1, false⟩ hb with ⟨hf, _⟩ | ⟨p, hmem, hfree, hpos, hlen⟩
      · exact Bool.noConfusion hf
      · have hmax : ∀ q ∈ st.tuples.enum,
            tupleMatchLen q.2 (stripExtension fname)
              ≤ tupleMatchLen p.2 (stripExtension fname) := by
          intro q hq
          rcases scanFold_bound mname (stripExtension fname) st.tuples.enum
              ⟨none, -1, false⟩ q hq with h | h
          · omega
          · rw [← hlen] at h
            exact h
        have := hocc p hmem hpos hmax
        rw [this] at hfree
        exact Bool.noConfusion hfree
    simp [handleNewFile, hmulti, hres, hk, hbf]

/-- Witness for C4: `img2.png` arrives in modality `A`; the only (and
hence best-scoring) matching tuple already holds an `A` image, so a new
tuple is inserted right after the current position. -/
theorem occupied_best_creates_new_tuple_witness :
    handleNewFile stOccFix "/d/A/img2.png" "img2.png"
      = insertTuple stOccFix (stOccFix.currentTupleIndex + 1)
          ⟨stripExtension "img2.png", [⟨"/d/A/img2.png", "img2.png", "A"⟩]⟩ :=
  occupied_best_creates_new_tuple stOccFix "/d/A/img2.png" "img2.png" "A"
    (by decide) (by decide) (by decide) (by decide)

/-! ## Claim C1: the fuzzy pass candidate set -/

theorem indices_insert (t : Trie) (cs : List Char) (i : Nat) :
    (t.insert cs i).indices = t.indices ++ [i] := by
  cases t with
  | node ch idxs => cases cs <;> rfl

theorem foldl_insert_indices_ne :
    ∀ (l : List (Nat × String)) (t : Trie), t.indices ≠ [] →
      (l.foldl (fun t p => t.insert p.2.data p.1) t).indices ≠ [] := by
  intro l
  induction l with
  | nil => intro t h; exact h
  | cons p l ih =>
      intro t h
      rw [List.foldl_cons]
      exact ih (t.insert p.2.data p.1) (by rw [indices_insert]; simp)

theorem buildTrie_indices_ne (refKeys : List String) (h : refKeys ≠ []) :
    (buildTrie refKeys).indices ≠ [] := by
  rcases refKeys with _ | ⟨k, ks⟩
  · exact absurd rfl h
  · show ((k :: ks).enum.foldl (fun (t : Trie) p => t.insert p.2.data p.1)
      (Trie.node [] [])).indices ≠ []
    rw [List.enum_cons, List.foldl_cons]
    refine foldl_insert_indices_ne _ _ ?_
    rw [indices_insert]
    simp

theorem walkBest_indices (q : List Char) :
    ∀ (t best : Trie), walkBest t q best = best ∨ (walkBest t q best).indices ≠ [] := by
  induction q with
  | nil => intro t best; exact Or.inl rfl
  | cons c cs ih =>
      intro t best
      have hstep : walkBest t (c :: cs) best =
          (match childGet t.children c with
           | none => best
           | some t' => walkBest t' cs (if t'.indices ≠ [] then t' else best)) := rfl
      rcases hc : childGet t.children c with _ | t'
      · rw [hstep, hc]
        exact Or.inl rfl
      · rw [hstep, hc]
        show walkBest t' cs (if t'.indices ≠ [] then t' else best) = best ∨
          (walkBest t' cs (if t'.indices ≠ [] then t' else best)).indices ≠ []
        by_cases hne : t'.indices ≠ []
        · rw [if_pos hne]
          rcases ih t' t' with h | h
          · rw [h]
            exact Or.inr hne
          · exact Or.inr h
        · rw [if_neg hne]
          exact ih t' best

theorem fuzzyCandidates_ne (refKeys : List String) (q : String) (h : refKeys ≠ []) :
    fuzzyCandidates (buildTrie refKeys) q ≠ [] := by
  show (walkBest (buildTrie refKeys) q.data (buildTrie refKeys)).indices ≠ []
  rcases walkBest_indices q.data (buildTrie refKeys) (buildTrie refKeys) with h1 | h1
  · rw [h1]
    exact buildTrie_indices_ne refKeys h
  · exact h1

/-- **C1 counterexample.**  With references `{ab, ax}` and modality-`B`
files `{ab.png, abc.png}`: the deepest non-empty trie node reached by
`"abc"` stores only index 0, index 0 is exactly claimed by `B`'s
`ab.png`, so the claim's candidate set (deepest-node indices minus
exactly-claimed ones) is empty and the claim places `abc.png` in no
group — yet the code assigns `abc.png` to reference 0's group (the code
never subtracts the exactly-claimed indices). -/
theorem matcher_candidates_cex :
    ((fuzzyCandidates (buildTrie ["ab", "ax"]) "abc").filter
        (fun i => !((exactClaimed ["ab", "ax"] mfCexFix ["A", "B"] "A").contains i)) = []) ∧
    exactIdx ["ab", "ax"] "abc" = none ∧
    ((matchTuplesWithTrie mfCexFix ["A", "B"]).any
        (fun t => t.files.any (fun e => e.2 = ⟨"abc.png", "/d/B/abc.png"⟩))) = true := by
  decide

/-- **C1 amended.**  The candidate set of the fuzzy pass is the index set
stored at the deepest non-empty trie node reached by walking the query —
with *no* subtraction of exactly-claimed indices — and since the root
stores every reference index, it is never empty while reference files
exist; consequently the fuzzy pass always places such a file in the
group of the tie-broken candidate, never dropping it. -/
theorem matcher_candidates_amended (refKeys : List String) (q : String)
    (h : refKeys ≠ []) :
    fuzzyCandidates (buildTrie refKeys) q ≠ [] ∧
    ∀ (mod : String) (gs : List Grp) (f : MFile),
      stripExtension f.name = q → exactIdx refKeys q = none →
      applyFuzzyFile refKeys (buildTrie refKeys) mod gs f
        = updateGroup gs
            (selectBest refKeys q (fuzzyCandidates (buildTrie refKeys) q)) mod f := by
  refine ⟨fuzzyCandidates_ne refKeys q h, ?_⟩
  intro mod gs f hq hex
  rcases hc : fuzzyCandidates (buildTrie refKeys) q with _ | ⟨c, cs⟩
  · exact absurd hc (fuzzyCandidates_ne refKeys q h)
  · simp [applyFuzzyFile, hq, hex, hc]

/-- Witness for C1 (amended) on the `{ab, ax}` reference set. -/
theorem matcher_candidates_amended_witness :
    fuzzyCandidates (buildTrie ["ab", "ax"]) "abc" ≠ [] ∧
    applyFuzzyFile ["ab", "ax"] (buildTrie ["ab", "ax"]) "B"
        (groupsInit "A" [⟨"ab.png", "/d/A/ab.png"⟩, ⟨"ax.png", "/d/A/ax.png"⟩])
        ⟨"abc.png", "/d/B/abc.png"⟩
      = updateGroup
          (groupsInit "A" [⟨"ab.png", "/d/A/ab.png"⟩, ⟨"ax.png", "/d/A/ax.png"⟩])
          (selectBest ["ab", "ax"] "abc" (fuzzyCandidates (buildTrie ["ab", "ax"]) "abc"))
          "B" ⟨"abc.png", "/d/B/abc.png"⟩ := by
  have h := matcher_candidates_amended ["ab", "ax"] "abc" (by decide)
  exact ⟨h.1, h.2 "B" _ _ (by decide) (by decide)⟩

/-! ## Claim C7: the fuzzy tie-break ordering -/

theorem tbBetter_irrefl (a : Bool × Nat × Int) : ¬ tbBetter a a := by
  intro h
  rcases h with ⟨h1, h2⟩ | ⟨_, h2⟩ | ⟨_, _, h2⟩
  · rw [h1] at h2
    exact Bool.noConfusion h2
  · omega
  · omega

theorem tbBetter_trans {a b c : Bool × Nat × Int} :
    tbBetter a b → tbBetter b c → tbBetter a c := by
  intro h1 h2
  rcases h1 with ⟨ha1, hb1⟩ | ⟨hab, hlt⟩ | ⟨hab, heq, hgt⟩ <;>
    rcases h2 with ⟨hb2, hc2⟩ | ⟨hbc, hlt2⟩ | ⟨hbc, heq2, hgt2⟩
  · rw [hb1] at hb2
    exact Bool.noConfusion hb2
  · exact Or.inl ⟨ha1, hbc ▸ hb1⟩
  · exact Or.inl ⟨ha1, hbc ▸ hb1⟩
  · exact Or.inl ⟨hab.trans hb2, hc2⟩
  · exact Or.inr (Or.inl ⟨hab.trans hbc, by omega⟩)
  · exact Or.inr (Or.inl ⟨hab.trans hbc, by omega⟩)
  · exact Or.inl ⟨hab.trans hb2, hc2⟩
  · exact Or.inr (Or.inl ⟨hab.trans hbc, by omega⟩)
  · exact Or.inr (Or.inr ⟨hab.trans hbc, heq.trans heq2, by omega⟩)

theorem tbBetter_total (a b : Bool × Nat × Int) :
    tbBetter a b ∨ tbBetter b a ∨ a = b := by
  obtain ⟨a1, a2, a3⟩ := a
  obtain ⟨b1, b2, b3⟩ := b
  simp only [tbBetter, Prod.mk.injEq]
  cases a1 <;> cases b1
  · rcases Nat.lt_trichotomy a2 b2 with h | h | h
    · exact Or.inl (Or.inr (Or.inl ⟨rfl, h⟩))
    · rcases Int.lt_trichotomy a3 b3 with h2 | h2 | h2
      · exact Or.inr (Or.inl (Or.inr (Or.inr ⟨rfl, h.symm, h2⟩)))
      · exact Or.inr (Or.inr ⟨rfl, h, h2⟩)
      · exact Or.inl (Or.inr (Or.inr ⟨rfl, h, h2⟩))
    · exact Or.inr (Or.inl (Or.inr (Or.inl ⟨rfl, h⟩)))
  · exact Or.inl (Or.inl ⟨rfl, rfl⟩)
  · exact Or.inr (Or.inl (Or.inl ⟨rfl, rfl⟩))
  · rcases Nat.lt_trichotomy a2 b2 with h | h | h
    · exact Or.inl (Or.inr (Or.inl ⟨rfl, h⟩))
    · rcases Int.lt_trichotomy a3 b3 with h2 | h2 | h2
      · exact Or.inr (Or.inl (Or.inr (Or.inr ⟨rfl, h.symm, h2⟩)))
      · exact Or.inr (Or.inr ⟨rfl, h, h2⟩)
      · exact Or.inl (Or.inr (Or.inr ⟨rfl, h, h2⟩))
    · exact Or.inr (Or.inl (Or.inr (Or.inl ⟨rfl, h⟩)))

/-- The scan's `isBetter` boolean decides `tbBetter` against a recorded
best. -/
theorem tb_bool_iff (a b : Bool × Nat × Int) :
    (((!a.1 && b.1) ||
      (a.1 == b.1 && ltOptNat a.2.1 (some b.2.1)) ||
      (a.1 == b.1 && eqOptNat a.2.1 (some b.2.1) && decide (b.2.2 < a.2.2))) = true)
    ↔ tbBetter a b := by
  simp only [tbBetter, ltOptNat, eqOptNat, Bool.and_eq_true, Bool.or_eq_true,
    Bool.not_eq_true', beq_iff_eq, decide_eq_true_eq]
  tauto

/-- `tbStep` from a recorded best is governed by `tbBetter`. -/
theorem tbStep_spec (refKeys : List String) (q : List Char) (j i : Nat) :
    tbStep refKeys q (tbState refKeys q j) i
      = if tbBetter (tbKey refKeys q i) (tbKey refKeys q j)
          then tbState refKeys q i else tbState refKeys q j := by
  have hstep : tbStep refKeys q (tbState refKeys q j) i =
      (if ((!(tbKey refKeys q i).1 && (tbKey refKeys q j).1) ||
           ((tbKey refKeys q i).1 == (tbKey refKeys q j).1 &&
             ltOptNat (tbKey refKeys q i).2.1 (some (tbKey refKeys q j).2.1)) ||
           ((tbKey refKeys q i).1 == (tbKey refKeys q j).1 &&
             eqOptNat (tbKey refKeys q i).2.1 (some (tbKey refKeys q j).2.1) &&
             decide ((tbKey refKeys q j).2.2 < (tbKey refKeys q i).2.2))) = true
        then tbState refKeys q i else tbState refKeys q j) := rfl
  rw [hstep]
  by_cases hb : tbBetter (tbKey refKeys q i) (tbKey refKeys q j)
  · rw [if_pos ((tb_bool_iff _ _).mpr hb), if_pos hb]
  · rw [if_neg (fun hc => hb ((tb_bool_iff _ _).mp hc)), if_neg hb]

/-- The first candidate always replaces the virtual initial best. -/
theorem tbStep_first (refKeys : List String) (q : List Char) (c i : Nat) :
    tbStep refKeys q ⟨true, none, -1, c⟩ i = tbState refKeys q i := by
  simp only [tbStep, tbState, tbKey, ltOptNat]
  cases hcrop : isCropName ⟨((refKeys.getD i "").data : List Char)⟩ <;> simp [hcrop]

/-- Scanning a list from a recorded best yields a recorded best that is
among the scanned candidates (or the start), is never strictly worse
than the start, and is not beaten by any scanned candidate. -/
theorem tbFold_spec (refKeys : List String) (q : List Char) :
    ∀ (l : List Nat) (j : Nat),
      ∃ j', (l.foldl (tbStep refKeys q) (tbState refKeys q j)) = tbState refKeys q j' ∧
        (j' = j ∨ j' ∈ l) ∧
        ¬ tbBetter (tbKey refKeys q j) (tbKey refKeys q j') ∧
        ∀ x ∈ l, ¬ tbBetter (tbKey refKeys q x) (tbKey refKeys q j') := by
  intro l
  induction l with
  | nil =>
      intro j
      exact ⟨j, rfl, Or.inl rfl, tbBetter_irrefl _, fun x hx => absurd hx (List.not_mem_nil x)⟩
  | cons i l ih =>
      intro j
      rw [List.foldl_cons, tbStep_spec]
      by_cases hb : tbBetter (tbKey refKeys q i) (tbKey refKeys q j)
      · rw [if_pos hb]
        obtain ⟨j', heq, hmem, hnj, hall⟩ := ih i
        refine ⟨j', heq, ?_, ?_, ?_⟩
        · rcases hmem with h | h
          · exact Or.inr (h ▸ List.mem_cons_self i l)
          · exact Or.inr (List.mem_cons_of_mem i h)
        · intro hjj
          exact hnj (tbBetter_trans hb hjj)
        · intro x hx
          rcases List.mem_cons.mp hx with h | h
          · exact h ▸ hnj
          · exact hall x h
      · rw [if_neg hb]
        obtain ⟨j', heq, hmem, hnj, hall⟩ := ih j
        refine ⟨j', heq, ?_, hnj, ?_⟩
        · rcases hmem with h | h
          · exact Or.inl h
          · exact Or.inr (List.mem_cons_of_mem i h)
        · intro x hx
          rcases List.mem_cons.mp hx with h | h
          · subst h
            intro hxx
            rcases tbBetter_total (tbKey refKeys q j) (tbKey refKeys q j') with ht | ht | ht
            · exact hnj ht
            · exact hb (tbBetter_trans hxx ht)
            · rw [← ht] at hxx
              exact hb hxx
          · exact hall x h

/-- The tie-break scan returns a candidate that no other candidate
strictly beats in the (non-crop, length-difference, LCS) preference
order. -/
theorem selectBest_min (refKeys : List String) (q : String) (cands : List Nat)
    (h : cands ≠ []) :
    selectBest refKeys q cands ∈ cands ∧
    ∀ x ∈ cands, ¬ tbBetter (tbKey refKeys q.data x)
      (tbKey refKeys q.data (selectBest refKeys q cands)) := by
  rcases cands with _ | ⟨c, cs⟩
  · exact absurd rfl h
  · rcases cs with _ | ⟨c2, cs'⟩
    · refine ⟨by simp [selectBest], ?_⟩
      intro x hx
      have hx' : x = c := by simpa using hx
      subst hx'
      exact tbBetter_irrefl _
    · have hsel : selectBest refKeys q (c :: c2 :: cs')
          = ((c :: c2 :: cs').foldl (tbStep refKeys q.data) ⟨true, none, -1, c⟩).idx := rfl
      rw [List.foldl_cons, tbStep_first] at hsel
      obtain ⟨j', heq, hmem, hnc, hall⟩ := tbFold_spec refKeys q.data (c2 :: cs') c
      rw [heq] at hsel
      rw [hsel]
      constructor
      · rcases hmem with h1 | h1
        · rw [h1]
          exact List.mem_cons_self c (c2 :: cs')
        · exact List.mem_cons_of_mem c h1
      · intro x hx
        rcases List.mem_cons.mp hx with h1 | h1
        · subst h1
          exact hnc
        · exact hall x h1

/-- **C7**.  First conjunct: in the fuzzy tie-break, the selected
candidate is never strictly beaten under the preference order "non-crop
over crop, then smaller stripped-length difference, then larger LCS".
Second/third conjuncts: with reference files `{x_gt, x_crop01}` the
probe `x_pred` lands in `x_gt`'s group, while `x_crop01`'s group stays a
singleton — crop deprioritisation beats the length tie-break. -/
theorem tiebreak_prefers_noncrop :
    (∀ (refKeys : List String) (q : String) (cands : List Nat), cands ≠ [] →
      selectBest refKeys q cands ∈ cands ∧
      ∀ x ∈ cands, ¬ tbBetter (tbKey refKeys q.data x)
        (tbKey refKeys q.data (selectBest refKeys q cands))) ∧
    (matchTuplesWithTrie mfCropFix ["R", "M"]).get? 0
      = some ⟨"x_gt", [("R", ⟨"x_gt.png", "/d/R/x_gt.png"⟩),
                       ("M", ⟨"x_pred.png", "/d/M/x_pred.png"⟩)]⟩ ∧
    (matchTuplesWithTrie mfCropFix ["R", "M"]).get? 1
      = some ⟨"x_crop01", [("R", ⟨"x_crop01.png", "/d/R/x_crop01.png"⟩)]⟩ :=
  ⟨selectBest_min, by decide, by decide⟩

/-- Witness for C7 at the `x_gt` / `x_crop01` reference set. -/
theorem tiebreak_prefers_noncrop_witness :
    selectBest ["x_gt", "x_crop01"] "x_pred" [0, 1] ∈ ([0, 1] : List Nat) ∧
    ¬ tbBetter (tbKey ["x_gt", "x_crop01"] "x_pred".data 1)
      (tbKey ["x_gt", "x_crop01"] "x_pred".data
        (selectBest ["x_gt", "x_crop01"] "x_pred" [0, 1])) := by
  have h := tiebreak_prefers_noncrop.1 ["x_gt", "x_crop01"] "x_pred" [0, 1] (by decide)
  exact ⟨h.1, h.2 1 (by decide)⟩

/-! ## Claims C8/C9: invariants of the matcher's group table -/

theorem groupInv_init (refMod : String) (refFiles : List MFile) (refKeys : List String)
    (trie : Trie) (mf : List (String × List MFile)) :
    GroupInv refMod refFiles refKeys trie mf (groupsInit refMod refFiles) := by
  constructor
  · simp [groupsInit]
  · intro i g hg
    rw [groupsInit, List.get?_map] at hg
    rcases Option.map_eq_some'.mp hg with ⟨f0, hf0, rfl⟩
    refine ⟨by simp, ?_, ?_⟩
    · rw [List.get?_eq_getElem?] at hf0
      simp [alookup, hf0]
    · intro mod f hmod hl
      simp only [alookup] at hl
      rw [if_neg (fun h => hmod h.symm)] at hl
      exact absurd hl (by simp [alookup])

theorem groupInv_update (refMod : String) (refFiles : List MFile) (refKeys : List String)
    (trie : Trie) (mf : List (String × List MFile)) (gs : List Grp)
    (j : Nat) (mod : String) (f : MFile)
    (hinv : GroupInv refMod refFiles refKeys trie mf gs)
    (hmod : mod ≠ refMod) (hf : f ∈ getFiles mf mod)
    (htgt : fileTarget refKeys trie (stripExtension f.name) = some j) :
    GroupInv refMod refFiles refKeys trie mf (updateGroup gs j mod f) := by
  obtain ⟨hlen, hmain⟩ := hinv
  constructor
  · rw [updateGroup, List.length_set]
    exact hlen
  · intro i g hg
    by_cases hij : i = j
    · subst hij
      rw [updateGroup, List.get?_set_eq] at hg
      rcases Option.map_eq_some'.mp hg with ⟨g0, hg0, rfl⟩
      obtain ⟨hnd0, href0, hrest0⟩ := hmain i g0 hg0
      have hgetD : gs.getD i [] = g0 := by
        have hg0' : gs[i]? = some g0 := by
          rw [← List.get?_eq_getElem?]
          exact hg0
        simp [List.getD, hg0']
      rw [hgetD]
      refine ⟨keys_setAList_nodup mod f g0 hnd0, ?_, ?_⟩
      · rw [alookup_setAList_ne mod refMod f hmod g0]
        exact href0
      · intro mod' f' hmod' hl
        by_cases hmm : mod' = mod
        · subst hmm
          rw [alookup_setAList_self mod' f g0] at hl
          cases hl
          exact ⟨hf, htgt⟩
        · rw [alookup_setAList_ne mod mod' f (fun h => hmm h.symm) g0] at hl
          exact hrest0 mod' f' hmod' hl
    · rw [updateGroup, List.get?_set_ne _ _ (fun h => hij h.symm)] at hg
      exact hmain i g hg

theorem groupInv_exactPass (refMod : String) (refFiles : List MFile)
    (refKeys : List String) (trie : Trie) (mf : List (String × List MFile))
    (mods : List String) (gs : List Grp)
    (hx : ∀ q, fileTarget refKeys trie q =
      (match exactIdx refKeys q with
       | some i => some i
       | none => match fuzzyCandidates trie q with
          | [] => none
          | c :: cs => some (selectBest refKeys q (c :: cs))))
    (hinv : GroupInv refMod refFiles refKeys trie mf gs) :
    GroupInv refMod refFiles refKeys trie mf (exactPass refKeys refMod mf mods gs) := by
  refine foldl_inv (GroupInv refMod refFiles refKeys trie mf) _ mods gs hinv ?_
  intro b m _ hb
  by_cases hm : m = refMod
  · rw [if_pos hm]
    exact hb
  · rw [if_neg hm]
    refine foldl_inv (GroupInv refMod refFiles refKeys trie mf) _ (getFiles mf m) b hb ?_
    intro b' a ha hb'
    rw [applyExactFile]
    rcases he : exactIdx refKeys (stripExtension a.name) with _ | j
    · exact hb'
    · exact groupInv_update refMod refFiles refKeys trie mf b' j m a hb' hm ha
        (by rw [hx, he])

theorem groupInv_fuzzyPass (refMod : String) (refFiles : List MFile)
    (refKeys : List String) (trie : Trie) (mf : List (String × List MFile))
    (mods : List String) (gs : List Grp)
    (hx : ∀ q, fileTarget refKeys trie q =
      (match exactIdx refKeys q with
       | some i => some i
       | none => match fuzzyCandidates trie q with
          | [] => none
          | c :: cs => some (selectBest refKeys q (c :: cs))))
    (hinv : GroupInv refMod refFiles refKeys trie mf gs) :
    GroupInv refMod refFiles refKeys trie mf (fuzzyPass refKeys trie refMod mf mods gs) := by
  refine foldl_inv (GroupInv refMod refFiles refKeys trie mf) _ mods gs hinv ?_
  intro b m _ hb
  by_cases hm : m = refMod
  · rw [if_pos hm]
    exact hb
  · rw [if_neg hm]
    refine foldl_inv (GroupInv refMod refFiles refKeys trie mf) _ (getFiles mf m) b hb ?_
    intro b' a ha hb'
    rw [applyFuzzyFile]
    rcases he : exactIdx refKeys (stripExtension a.name) with _ | j
    · simp only [he, Option.isSome_none, Bool.false_eq_true, if_false]
      rcases hc : fuzzyCandidates trie (stripExtension a.name) with _ | ⟨c, cs⟩
      · exact hb'
      · exact groupInv_update refMod refFiles refKeys trie mf b' _ m a hb' hm ha
          (by rw [hx, he, hc])
    · simp only [he, Option.isSome_some, if_true]
      exact hb'

theorem groupInv_matcherGroups (mf : List (String × List MFile)) (mods : List String)
    (refMod : String) (refFiles : List MFile) :
    GroupInv refMod refFiles (refFiles.map (fun f => stripExtension f.name))
      (buildTrie (refFiles.map (fun f => stripExtension f.name))) mf
      (matcherGroups mf mods refMod refFiles) := by
  rw [matcherGroups]
  exact groupInv_fuzzyPass _ _ _ _ _ _ _ (fun q => rfl)
    (groupInv_exactPass _ _ _ _ _ _ _ (fun q => rfl)
      (groupInv_init refMod refFiles _ _ mf))

theorem pickRefMod_mem (mf : List (String × List MFile)) :
    ∀ (mods : List String), mods ≠ [] → pickRefMod mf mods ∈ mods := by
  intro mods h
  rcases mods with _ | ⟨m, ms⟩
  · exact absurd rfl h
  · refine foldl_inv (fun acc : String × Nat => acc.1 ∈ m :: ms) _ (m :: ms) _ ?_ ?_
    · show (m :: ms).headD "" ∈ m :: ms
      simp
    · intro b a ha hb
      dsimp only
      by_cases hc : b.2 < (getFiles mf a).length
      · rw [if_pos hc]
        exact ha
      · rw [if_neg hc]
        exact hb

/-- **C8**.  For every input whose per-modality file lists hold no
duplicate files, (a) every emitted group holds at most one file per
modality (its modality keys are pairwise distinct, so no file is
referenced twice within a group), and (b) a file referenced under a
modality in one group appears under that modality in no other group. -/
theorem matcher_no_duplicates (mf : List (String × List MFile)) (mods : List String)
    (hnd : ∀ m ∈ mods, (getFiles mf m).Nodup) :
    (∀ t ∈ matchTuplesWithTrie mf mods, (t.files.map Prod.fst).Nodup) ∧
    (∀ (mod : String) (f : MFile) (i j : Nat) (ti tj : MatchedTuple),
      (matchTuplesWithTrie mf mods).get? i = some ti →
      (matchTuplesWithTrie mf mods).get? j = some tj →
      (mod, f) ∈ ti.files → (mod, f) ∈ tj.files → i = j) := by
  by_cases h2 : mods.length < 2
  · rcases mods with _ | ⟨m, ms⟩
    · have hout : matchTuplesWithTrie mf [] = [] := rfl
      rw [hout]
      exact ⟨fun t ht => absurd ht (List.not_mem_nil t),
        fun mod f i j ti tj hti htj _ _ => by simp at hti⟩
    · rcases ms with _ | ⟨m2, ms'⟩
      · have hout : matchTuplesWithTrie mf [m]
            = (getFiles mf m).map (fun f => ⟨stripExtension f.name, [(m, f)]⟩) := rfl
        rw [hout]
        constructor
        · intro t ht
          rcases List.mem_map.mp ht with ⟨f0, _, rfl⟩
          simp
        · intro mod f i j ti tj hti htj hfi hfj
          rw [List.get?_map] at hti htj
          rcases Option.map_eq_some'.mp hti with ⟨fi, hfi', rfl⟩
          rcases Option.map_eq_some'.mp htj with ⟨fj, hfj', rfl⟩
          simp only [List.mem_singleton, Prod.mk.injEq] at hfi hfj
          have hij : fi = fj := by rw [← hfi.2, ← hfj.2]
          have hlen : i < (getFiles mf m).length := by
            rw [List.get?_eq_getElem?] at hfi'
            exact (List.getElem?_eq_some_iff.mp hfi').1
          refine List.getElem?_inj hlen (hnd m (List.mem_cons_self m [])) ?_
          rw [← List.get?_eq_getElem?, ← List.get?_eq_getElem?, hfi', hfj', hij]
      · exact absurd h2 (by simp)
  · have hmne : mods ≠ [] := by
      intro h
      rw [h] at h2
      exact h2 (by simp)
    have hrefmem : pickRefMod mf mods ∈ mods := pickRefMod_mem mf mods hmne
    by_cases hrf : getFiles mf (pickRefMod mf mods) = []
    · have hout : matchTuplesWithTrie mf mods = [] := by
        simp only [matchTuplesWithTrie, if_neg h2]
        rw [if_pos hrf]
      rw [hout]
      exact ⟨fun t ht => absurd ht (List.not_mem_nil t),
        fun mod f i j ti tj hti htj _ _ => by simp at hti⟩
    · have hout : matchTuplesWithTrie mf mods =
          (matcherGroups mf mods (pickRefMod mf mods) (getFiles mf (pickRefMod mf mods))).enum.map
            (fun p => ⟨((getFiles mf (pickRefMod mf mods)).map
              (fun f => stripExtension f.name)).getD p.1 "", p.2⟩) := by
        simp only [matchTuplesWithTrie, if_neg h2]
        rw [if_neg hrf]
      obtain ⟨hglen, hmain⟩ := groupInv_matcherGroups mf mods (pickRefMod mf mods)
        (getFiles mf (pickRefMod mf mods))
      rw [hout]
      constructor
      · intro t ht
        rcases List.mem_map.mp ht with ⟨p, hp, rfl⟩
        have hgp : (matcherGroups mf mods (pickRefMod mf mods)
            (getFiles mf (pickRefMod mf mods))).get? p.1 = some p.2 := by
          rw [List.get?_eq_getElem?]
          exact List.mem_enum_iff_getElem?.mp hp
        exact (hmain p.1 p.2 hgp).1
      · intro mod f i j ti tj hti htj hfi hfj
        rw [List.get?_map, List.get?_enum] at hti htj
        rcases Option.map_eq_some'.mp hti with ⟨pi, hpi, rfl⟩
        rcases Option.map_eq_some'.mp hpi with ⟨gi, hgi, rfl⟩
        rcases Option.map_eq_some'.mp htj with ⟨pj, hpj, rfl⟩
        rcases Option.map_eq_some'.mp hpj with ⟨gj, hgj, rfl⟩
        obtain ⟨hndi, hrefi, hresti⟩ := hmain i gi hgi
        obtain ⟨hndj, hrefj, hrestj⟩ := hmain j gj hgj
        have hli : alookup gi mod = some f := alookup_of_mem_nodup mod f gi hndi hfi
        have hlj : alookup gj mod = some f := alookup_of_mem_nodup mod f gj hndj hfj
        by_cases hmr : mod = pickRefMod mf mods
        · subst hmr
          have hi' : (getFiles mf (pickRefMod mf mods)).get? i = some f := by
            rw [← hrefi]
            exact hli
          have hj' : (getFiles mf (pickRefMod mf mods)).get? j = some f := by
            rw [← hrefj]
            exact hlj
          have hleni : i < (getFiles mf (pickRefMod mf mods)).length := by
            rw [List.get?_eq_getElem?] at hi'
            exact (List.getElem?_eq_some_iff.mp hi').1
          refine List.getElem?_inj hleni (hnd _ hrefmem) ?_
          rw [← List.get?_eq_getElem?, ← List.get?_eq_getElem?, hi', hj']
        · have hti' := (hresti mod f hmr hli).2
          have htj' := (hrestj mod f hmr hlj).2
          rw [hti'] at htj'
          exact Option.some.inj htj'

/-- Witness for C8 on the crop fixture: the emitted `x_gt` group holds
one file per modality. -/
theorem matcher_no_duplicates_witness :
    (((⟨"x_gt", [("R", ⟨"x_gt.png", "/d/R/x_gt.png"⟩),
        ("M", ⟨"x_pred.png", "/d/M/x_pred.png"⟩)]⟩ : MatchedTuple)).files.map Prod.fst).Nodup := by
  have h := matcher_no_duplicates mfCropFix ["R", "M"] (by decide)
  exact h.1 _ (by decide)

/-! ## Claim C9: last assignment wins -/

theorem foldl_if_false {pr : MFile → Bool} (h : ∀ f, pr f = false) :
    ∀ (files : List MFile) (v : Option MFile),
      files.foldl (fun acc f => if pr f then some f else acc) v = v := by
  intro files
  induction files with
  | nil => intro v; rfl
  | cons f fs ih =>
      intro v
      rw [List.foldl_cons]
      have : (if pr f then some f else v) = v := by rw [h f]; simp
      rw [this, ih]

theorem foldl_lastHit (pr : MFile → Bool) :
    ∀ (files : List MFile) (v : Option MFile),
      files.foldl (fun acc f => if pr f then some f else acc) v
        = (match lastHit pr files with
           | some f => some f
           | none => v) := by
  intro files
  induction files with
  | nil => intro v; rfl
  | cons f fs ih =>
      intro v
      rw [List.foldl_cons, ih]
      have hlh : lastHit pr (f :: fs)
          = (match lastHit pr fs with
             | some x => some x
             | none => if pr f then some f else none) := by
        show fs.foldl _ (if pr f then some f else none) = _
        rw [ih]
      rw [hlh]
      rcases lastHit pr fs with _ | x
      · cases hpf : pr f <;> simp [hpf]
      · rfl

/-- A per-file step that never touches `(i, mod)` preserves the lookup
through a fold. -/
theorem fold_preserve {step : List Grp → MFile → List Grp} (mod : String) (i : Nat)
    (hstep : ∀ gs g f, gs.get? i = some g →
      ∃ g', (step gs f).get? i = some g' ∧ alookup g' mod = alookup g mod) :
    ∀ (files : List MFile) (gs : List Grp) (g : Grp), gs.get? i = some g →
      ∃ g', (files.foldl step gs).get? i = some g' ∧ alookup g' mod = alookup g mod := by
  intro files
  induction files with
  | nil => intro gs g hg; exact ⟨g, hg, rfl⟩
  | cons f fs ih =>
      intro gs g hg
      rw [List.foldl_cons]
      obtain ⟨g1, hg1, hl1⟩ := hstep gs g f hg
      obtain ⟨g2, hg2, hl2⟩ := ih (step gs f) g1 hg1
      exact ⟨g2, hg2, hl2.trans hl1⟩

/-- Folding a per-file step that stores `f` at `(i, mod)` exactly when
`hit f` holds computes the running last hit. -/
theorem fold_lookup {step : List Grp → MFile → List Grp} {hit : MFile → Bool}
    (mod : String) (i : Nat)
    (hstep : ∀ gs g f, gs.get? i = some g →
      ∃ g', (step gs f).get? i = some g' ∧
        alookup g' mod = (if hit f then some f else alookup g mod)) :
    ∀ (files : List MFile) (gs : List Grp) (g : Grp), gs.get? i = some g →
      ∃ g', (files.foldl step gs).get? i = some g' ∧
        alookup g' mod
          = files.foldl (fun acc f => if hit f then some f else acc) (alookup g mod) := by
  intro files
  induction files with
  | nil => intro gs g hg; exact ⟨g, hg, rfl⟩
  | cons f fs ih =>
      intro gs g hg
      rw [List.foldl_cons, List.foldl_cons]
      obtain ⟨g1, hg1, hl1⟩ := hstep gs g f hg
      obtain ⟨g2, hg2, hl2⟩ := ih (step gs f) g1 hg1
      refine ⟨g2, hg2, ?_⟩
      rw [hl2, hl1]

/-- Modifying a group at one index: effect on `get?` at the (possibly
different) index `i`, given the list holds `g` at `i`. -/
theorem updateGroup_get (gs : List Grp) (j i : Nat) (mod' : String) (f : MFile)
    (g : Grp) (hg : gs.get? i = some g) :
    (updateGroup gs j mod' f).get? i
      = some (if j = i then setAList g mod' f else g) := by
  by_cases hij : j = i
  · subst hij
    have hgD : gs.getD j [] = g := by
      have hg' : gs[j]? = some g := by
        rw [← List.get?_eq_getElem?]; exact hg
      simp [List.getD, hg']
    rw [updateGroup, List.get?_set_eq, hg, hgD, if_pos rfl]
    rfl
  · rw [updateGroup, List.get?_set_ne _ _ hij, hg, if_neg hij]

/-- Effect of one exact-pass file application on the `(i, mod)` lookup. -/
theorem applyExact_lookup (refKeys : List String) (mod' mod : String) (i : Nat)
    (gs : List Grp) (g : Grp) (f : MFile) (hg : gs.get? i = some g) :
    ∃ g', (applyExactFile refKeys mod' gs f).get? i = some g' ∧
      alookup g' mod
        = (if (mod' == mod && exactHitB refKeys i f) then some f else alookup g mod) := by
  rcases he : exactIdx refKeys (stripExtension f.name) with _ | j
  · refine ⟨g, by rw [applyExactFile, he]; exact hg, ?_⟩
    have hb : exactHitB refKeys i f = false := by
      simp [exactHitB, he]
    rw [hb]
    simp
  · have happ : applyExactFile refKeys mod' gs f = updateGroup gs j mod' f := by
      rw [applyExactFile, he]
    by_cases hij : j = i
    · refine ⟨setAList g mod' f, ?_, ?_⟩
      · rw [happ, updateGroup_get gs j i mod' f g hg, if_pos hij]
      · have hb : exactHitB refKeys i f = true := by
          simp [exactHitB, he, hij]
        rw [hb]
        by_cases hmm : mod' = mod
        · subst hmm
          rw [alookup_setAList_self]
          simp
        · rw [alookup_setAList_ne mod' mod f hmm]
          have hbm : (mod' == mod) = false := by
            simp [hmm]
          rw [hbm]
          simp
    · refine ⟨g, ?_, ?_⟩
      · rw [happ, updateGroup_get gs j i mod' f g hg, if_neg hij]
      · have hb : exactHitB refKeys i f = false := by
          simp [exactHitB, he, hij]
        rw [hb]
        simp

/-- Effect of one fuzzy-pass file application on the `(i, mod)` lookup. -/
theorem applyFuzzy_lookup (refKeys : List String) (trie : Trie) (mod' mod : String)
    (i : Nat) (gs : List Grp) (g : Grp) (f : MFile) (hg : gs.get? i = some g) :
    ∃ g', (applyFuzzyFile refKeys trie mod' gs f).get? i = some g' ∧
      alookup g' mod
        = (if (mod' == mod && fuzzyHitB refKeys trie i f) then some f
           else alookup g mod) := by
  rcases he : exactIdx refKeys (stripExtension f.name) with _ | j
  · rcases hc : fuzzyCandidates trie (stripExtension f.name) with _ | ⟨c, cs⟩
    · have happ : applyFuzzyFile refKeys trie mod' gs f = gs := by
        simp [applyFuzzyFile, he, hc]
      refine ⟨g, by rw [happ]; exact hg, ?_⟩
      have hb : fuzzyHitB refKeys trie i f = false := by
        simp [fuzzyHitB, he, hc]
      rw [hb]
      simp
    · have hsel : applyFuzzyFile refKeys trie mod' gs f
          = updateGroup gs (selectBest refKeys (stripExtension f.name) (c :: cs)) mod' f := by
        simp [applyFuzzyFile, he, hc]
      by_cases hij : selectBest refKeys (stripExtension f.name) (c :: cs) = i
      · refine ⟨setAList g mod' f, ?_, ?_⟩
        · rw [hsel, updateGroup_get gs _ i mod' f g hg, if_pos hij]
        · have hb : fuzzyHitB refKeys trie i f = true := by
            simp [fuzzyHitB, he, hc, hij]
          rw [hb]
          by_cases hmm : mod' = mod
          · subst hmm
            rw [alookup_setAList_self]
            simp
          · rw [alookup_setAList_ne mod' mod f hmm]
            have hbm : (mod' == mod) = false := by
              simp [hmm]
            rw [hbm]
            simp
      · refine ⟨g, ?_, ?_⟩
        · rw [hsel, updateGroup_get gs _ i mod' f g hg, if_neg hij]
        · have hb : fuzzyHitB refKeys trie i f = false := by
            simp [fuzzyHitB, he, hc, hij]
          rw [hb]
          simp
  · have happ : applyFuzzyFile refKeys trie mod' gs f = gs := by
      simp [applyFuzzyFile, he]
    refine ⟨g, by rw [happ]; exact hg, ?_⟩
    have hb : fuzzyHitB refKeys trie i f = false := by
      simp [fuzzyHitB, he]
    rw [hb]
    simp

/-- Modalities not mentioning `mod` leave the `(i, mod)` lookup unchanged
through a whole per-modality pass. -/
theorem pass_preserve {innerStep : String → List Grp → MFile → List Grp}
    (refMod : String) (mf : List (String × List MFile)) (mod : String) (i : Nat)
    (hinner : ∀ m, m ≠ mod → ∀ gs g f, gs.get? i = some g →
      ∃ g', (innerStep m gs f).get? i = some g' ∧ alookup g' mod = alookup g mod) :
    ∀ (ms : List String), mod ∉ ms → ∀ gs g, gs.get? i = some g →
      ∃ g', (ms.foldl (fun gs m => if m = refMod then gs
               else (getFiles mf m).foldl (innerStep m) gs) gs).get? i = some g' ∧
        alookup g' mod = alookup g mod := by
  intro ms
  induction ms with
  | nil => intro _ gs g hg; exact ⟨g, hg, rfl⟩
  | cons m ms ih =>
      intro hnm gs g hg
      have hm : m ≠ mod := by
        intro h
        exact hnm (by rw [h]; exact List.mem_cons_self mod ms)
      have hnm2 : mod ∉ ms := fun h => hnm (List.mem_cons_of_mem _ h)
      simp only [List.foldl_cons]
      by_cases hr : m = refMod
      · rw [if_pos hr]
        exact ih hnm2 gs g hg
      · rw [if_neg hr]
        obtain ⟨g1, hg1, hl1⟩ :=
          fold_preserve mod i (hinner m hm) (getFiles mf m) gs g hg
        obtain ⟨g2, hg2, hl2⟩ := ih hnm2 _ g1 hg1
        exact ⟨g2, hg2, hl2.trans hl1⟩

/-- A whole per-modality pass sets the `(i, mod)` entry to the last file of
modality `mod` hitting index `i`, keeping the previous value when no file
hits. -/
theorem pass_lookup {innerStep : String → List Grp → MFile → List Grp}
    (refMod : String) (mf : List (String × List MFile)) (mod : String) (i : Nat)
    (hitB : MFile → Bool) (hmne : mod ≠ refMod)
    (hself : ∀ gs g f, gs.get? i = some g →
      ∃ g', (innerStep mod gs f).get? i = some g' ∧
        alookup g' mod = (if hitB f then some f else alookup g mod))
    (hother : ∀ m, m ≠ mod → ∀ gs g f, gs.get? i = some g →
      ∃ g', (innerStep m gs f).get? i = some g' ∧ alookup g' mod = alookup g mod)
    (ms : List String) (hmem : mod ∈ ms) (hnd : ms.Nodup)
    (gs : List Grp) (g : Grp) (hg : gs.get? i = some g) :
    ∃ g', (ms.foldl (fun gs m => if m = refMod then gs
             else (getFiles mf m).foldl (innerStep m) gs) gs).get? i = some g' ∧
      alookup g' mod
        = (match lastHit hitB (getFiles mf mod) with
           | some f => some f
           | none => alookup g mod) := by
  obtain ⟨pre, post, hms⟩ := List.append_of_mem hmem
  subst hms
  rw [List.nodup_append] at hnd
  have hpre : mod ∉ pre := fun h => hnd.2.2 h (List.mem_cons_self mod post)
  have hpost : mod ∉ post := (List.nodup_cons.mp hnd.2.1).1
  simp only [List.foldl_append, List.foldl_cons]
  rw [if_neg hmne]
  obtain ⟨g1, hg1, hl1⟩ := pass_preserve refMod mf mod i hother pre hpre gs g hg
  obtain ⟨g2, hg2, hl2⟩ := fold_lookup mod i hself (getFiles mf mod) _ g1 hg1
  obtain ⟨g3, hg3, hl3⟩ := pass_preserve refMod mf mod i hother post hpost _ g2 hg2
  refine ⟨g3, hg3, ?_⟩
  rw [hl3, hl2, foldl_lastHit, hl1]

/-- The `(i, mod)` entry after the exact pass. -/
theorem exactPass_lookup (refKeys : List String) (refMod : String)
    (mf : List (String × List MFile)) (mod : String) (i : Nat)
    (hmne : mod ≠ refMod) (ms : List String) (hmem : mod ∈ ms) (hnd : ms.Nodup)
    (gs : List Grp) (g : Grp) (hg : gs.get? i = some g) :
    ∃ g', (exactPass refKeys refMod mf ms gs).get? i = some g' ∧
      alookup g' mod
        = (match lastHit (exactHitB refKeys i) (getFiles mf mod) with
           | some f => some f
           | none => alookup g mod) := by
  refine pass_lookup refMod mf mod i (exactHitB refKeys i) hmne ?_ ?_ ms hmem hnd gs g hg
  · intro gs g f hg
    obtain ⟨g', h1, h2⟩ := applyExact_lookup refKeys mod mod i gs g f hg
    refine ⟨g', h1, ?_⟩
    rw [h2]
    have hbm : (mod == mod && exactHitB refKeys i f) = exactHitB refKeys i f := by
      simp
    rw [hbm]
  · intro m hm gs g f hg
    obtain ⟨g', h1, h2⟩ := applyExact_lookup refKeys m mod i gs g f hg
    refine ⟨g', h1, ?_⟩
    rw [h2]
    have hbm : (m == mod && exactHitB refKeys i f) = false := by
      simp [hm]
    rw [hbm]
    simp

/-- The `(i, mod)` entry after the fuzzy pass. -/
theorem fuzzyPass_lookup (refKeys : List String) (trie : Trie) (refMod : String)
    (mf : List (String × List MFile)) (mod : String) (i : Nat)
    (hmne : mod ≠ refMod) (ms : List String) (hmem : mod ∈ ms) (hnd : ms.Nodup)
    (gs : List Grp) (g : Grp) (hg : gs.get? i = some g) :
    ∃ g', (fuzzyPass refKeys trie refMod mf ms gs).get? i = some g' ∧
      alookup g' mod
        = (match lastHit (fuzzyHitB refKeys trie i) (getFiles mf mod) with
           | some f => some f
           | none => alookup g mod) := by
  refine pass_lookup refMod mf mod i (fuzzyHitB refKeys trie i) hmne ?_ ?_ ms hmem hnd gs g hg
  · intro gs g f hg
    obtain ⟨g', h1, h2⟩ := applyFuzzy_lookup refKeys trie mod mod i gs g f hg
    refine ⟨g', h1, ?_⟩
    rw [h2]
    have hbm : (mod == mod && fuzzyHitB refKeys trie i f)
        = fuzzyHitB refKeys trie i f := by
      simp
    rw [hbm]
  · intro m hm gs g f hg
    obtain ⟨g', h1, h2⟩ := applyFuzzy_lookup refKeys trie m mod i gs g f hg
    refine ⟨g', h1, ?_⟩
    rw [h2]
    have hbm : (m == mod && fuzzyHitB refKeys trie i f) = false := by
      simp [hm]
    rw [hbm]
    simp

/-- The `(i, mod)` entry of the finished group list is exactly the last
assignment: the last fuzzy hit if any, else the last exact hit. -/
theorem matcherGroups_lookup (mf : List (String × List MFile)) (mods : List String)
    (refMod : String) (refFiles : List MFile) (mod : String) (i : Nat) (rf : MFile)
    (hmne : mod ≠ refMod) (hmem : mod ∈ mods) (hnd : mods.Nodup)
    (hi : refFiles.get? i = some rf) :
    ∃ g, (matcherGroups mf mods refMod refFiles).get? i = some g ∧
      alookup g mod
        = lastAssigned (refFiles.map (fun f => stripExtension f.name))
            (buildTrie (refFiles.map (fun f => stripExtension f.name))) i
            (getFiles mf mod) := by
  have hmg : matcherGroups mf mods refMod refFiles
      = fuzzyPass (refFiles.map (fun f => stripExtension f.name))
          (buildTrie (refFiles.map (fun f => stripExtension f.name))) refMod mf mods
          (exactPass (refFiles.map (fun f => stripExtension f.name)) refMod mf mods
            (groupsInit refMod refFiles)) := rfl
  have h0 : (groupsInit refMod refFiles).get? i = some [(refMod, rf)] := by
    rw [groupsInit, List.get?_map, hi]
    rfl
  obtain ⟨g1, hg1, hl1⟩ := exactPass_lookup
    (refFiles.map (fun f => stripExtension f.name)) refMod mf mod i hmne mods hmem hnd
    _ _ h0
  obtain ⟨g2, hg2, hl2⟩ := fuzzyPass_lookup
    (refFiles.map (fun f => stripExtension f.name))
    (buildTrie (refFiles.map (fun f => stripExtension f.name))) refMod mf mod i hmne
    mods hmem hnd _ _ hg1
  refine ⟨g2, by rw [hmg]; exact hg2, ?_⟩
  rw [hl2, hl1]
  have hnone : alookup ([(refMod, rf)] : Grp) mod = none := by
    simp only [alookup, if_neg (fun h : refMod = mod => hmne h.symm)]
  rw [hnone, lastAssigned]
  rcases hf : lastHit (fuzzyHitB (refFiles.map (fun f => stripExtension f.name))
      (buildTrie (refFiles.map (fun f => stripExtension f.name))) i)
      (getFiles mf mod) with _ | f2
  · rw [hf]
    rcases he2 : lastHit (exactHitB (refFiles.map (fun f => stripExtension f.name)) i)
        (getFiles mf mod) with _ | f1
    · rw [he2]
    · rw [he2]
  · rw [hf]

/-- **C9.** When two distinct files of the same non-reference modality are
matched to the same reference index — `f1` by exact/fuzzy target, `f2` as
the modality's last assignment there — the finished tuple at that index
holds `f2` in the modality entry, and `f1` appears in no output tuple at
all: the later-processed file silently overwrites the earlier one, which is
also never routed through the empty-candidates (unmatched) path. -/
theorem later_file_overwrites (mf : List (String × List MFile)) (mods : List String)
    (mod : String) (i : Nat) (f1 f2 : MFile) (refKeys : List String) (trie : Trie)
    (hrk : refKeys
      = (getFiles mf (pickRefMod mf mods)).map (fun f => stripExtension f.name))
    (htr : trie = buildTrie refKeys)
    (hlen2 : ¬ mods.length < 2) (hndm : mods.Nodup)
    (hmem : mod ∈ mods) (hmne : mod ≠ pickRefMod mf mods)
    (hi : i < (getFiles mf (pickRefMod mf mods)).length)
    (hf1 : fileTarget refKeys trie (stripExtension f1.name) = some i)
    (hlast : lastAssigned refKeys trie i (getFiles mf mod) = some f2)
    (hne12 : f1 ≠ f2) :
    ∃ t, (matchTuplesWithTrie mf mods).get? i = some t ∧
      alookup t.files mod = some f2 ∧
      ∀ j tj, (matchTuplesWithTrie mf mods).get? j = some tj →
        (mod, f1) ∉ tj.files := by
  subst hrk
  subst htr
  have hrf : getFiles mf (pickRefMod mf mods) ≠ [] := by
    intro h
    rw [h] at hi
    simp at hi
  have hout : matchTuplesWithTrie mf mods =
      (matcherGroups mf mods (pickRefMod mf mods)
        (getFiles mf (pickRefMod mf mods))).enum.map
        (fun p => ⟨((getFiles mf (pickRefMod mf mods)).map
          (fun f => stripExtension f.name)).getD p.1 "", p.2⟩) := by
    simp only [matchTuplesWithTrie, if_neg hlen2]
    rw [if_neg hrf]
  obtain ⟨hglen, hmain⟩ := groupInv_matcherGroups mf mods (pickRefMod mf mods)
    (getFiles mf (pickRefMod mf mods))
  have hrfi : ∃ rf, (getFiles mf (pickRefMod mf mods)).get? i = some rf := by
    rw [List.get?_eq_getElem?]
    exact ⟨_, List.getElem?_eq_getElem hi⟩
  obtain ⟨rf, hrf_i⟩ := hrfi
  obtain ⟨g, hgget, hgl⟩ := matcherGroups_lookup mf mods (pickRefMod mf mods)
    (getFiles mf (pickRefMod mf mods)) mod i rf hmne hmem hndm hrf_i
  rw [hlast] at hgl
  refine ⟨⟨((getFiles mf (pickRefMod mf mods)).map
      (fun f => stripExtension f.name)).getD i "", g⟩, ?_, hgl, ?_⟩
  · rw [hout, List.get?_map, List.get?_enum, hgget]
    rfl
  · intro j tj htj hmem1
    rw [hout, List.get?_map, List.get?_enum] at htj
    rcases Option.map_eq_some'.mp htj with ⟨pj, hpj, rfl⟩
    rcases Option.map_eq_some'.mp hpj with ⟨gj, hgj, rfl⟩
    obtain ⟨hndj, hrefj, hrestj⟩ := hmain j gj hgj
    have hlj : alookup gj mod = some f1 := alookup_of_mem_nodup mod f1 gj hndj hmem1
    by_cases hij : j = i
    · subst hij
      rw [hgget] at hgj
      have hgg : g = gj := Option.some.inj hgj
      rw [← hgg] at hlj
      rw [hgl] at hlj
      exact hne12 (Option.some.inj hlj).symm
    · have htgt := (hrestj mod f1 hmne hlj).2
      rw [hf1] at htgt
      exact hij (Option.some.inj htgt).symm

/-- Witness for C9 on the counterexample fixture: in modality `B`, `ab.png`
(exact hit on reference index 0) is overwritten by the later `abc.png`
(fuzzy hit on the same index), so the emitted group holds `abc.png` and
`ab.png` appears nowhere. -/
theorem later_file_overwrites_witness :
    ∃ t, (matchTuplesWithTrie mfCexFix ["A", "B"]).get? 0 = some t ∧
      alookup t.files "B" = some ⟨"abc.png", "/d/B/abc.png"⟩ ∧
      ∀ j tj, (matchTuplesWithTrie mfCexFix ["A", "B"]).get? j = some tj →
        ("B", (⟨"ab.png", "/d/B/ab.png"⟩ : MFile)) ∉ tj.files :=
  later_file_overwrites mfCexFix ["A", "B"] "B" 0
    ⟨"ab.png", "/d/B/ab.png"⟩ ⟨"abc.png", "/d/B/abc.png"⟩ _ _ rfl rfl
    (by decide) (by decide) (by decide) (by decide) (by decide) (by decide)
    (by decide) (by decide)

end ImageCompare
